import Mathlib

/-!
Verification development for the fastpaze routing/dispatch engine
(fastpaze/libfastpaze.go). The Go source is shallowly embedded: each Go
function relevant to the examined properties is translated into an
executable Lean definition, and the properties are settled as theorems
about those definitions.

Modelling conventions:
- Go strings are Lean String / List Char (byte-versus-rune issues do not
  affect the examined properties).
- Go maps are modelled either as association lists whose list order stands
  for the (unspecified) Go map iteration order, or as functions built by
  pointwise update, whichever matches the use site.
- time.Time / time.Duration are modelled as Int nanoseconds.
- pathToRegex builds its pattern from the raw path WITHOUT escaping the
  non-placeholder text, so that text is interpreted as RE2. The embedding
  compiles the replaced pattern text into a regexp AST covering the
  modelled alphabet exactly as RE2 does: plain characters, the dot
  (any character but newline), flat parenthesized capture groups of
  fixed-width content, and the ([^/]+) placeholder groups, with capture
  groups numbered left to right and greedy leftmost-first matching;
  an unbalanced parenthesis is a compile failure, leaving the route with
  no usable pattern, as in the source. The remaining RE2 metacharacters
  (backslash, quantifiers, alternation, classes, anchors, stray braces)
  are outside the modelled class: compilation returns none for them and
  every theorem whose meaning depends on pattern semantics carries an
  explicit metacharacter-freeness hypothesis. Dots and parentheses are
  modelled because they witness how unescaped path text diverges from
  the specified placeholder-matching behavior.
-/

namespace Fastpaze

/-- One token of a compiled path regex: the pattern built by pathToRegex is
an anchored concatenation of literal characters and capture groups
([^/]+), so a compiled pattern is a list of these tokens. -/
inductive RTok where
  | lit (c : Char)
  | grp
  deriving DecidableEq, Repr

/-- Scanner state and traversal mirroring the Go regexp
FindAllStringSubmatch of the pattern for placeholders over a path: the
state is none outside a potential placeholder and some acc (accumulated
characters, reversed) after an opening brace. Emits the list of
placeholder names, in left-to-right order. -/
def scanNames : Option (List Char) → List Char → List String
  | none, [] => []
  | none, c :: cs => if c = '{' then scanNames (some []) cs else scanNames none cs
  | some _, [] => []
  | some acc, c :: cs =>
    if c = '}' then
      if acc.isEmpty then scanNames none cs
      else (acc.reverse.asString) :: scanNames none cs
    else if c = '{' then scanNames (some []) cs
    else scanNames (some (c :: acc)) cs

/-- Same traversal as scanNames, but producing the replaced pattern the way
the Go code builds it with ReplaceAllString: text outside placeholder
matches is kept as literal tokens, and each placeholder match becomes one
capture group token. -/
def scanToks : Option (List Char) → List Char → List RTok
  | none, [] => []
  | none, c :: cs => if c = '{' then scanToks (some []) cs else .lit c :: scanToks none cs
  | some acc, [] => .lit '{' :: acc.reverse.map .lit
  | some acc, c :: cs =>
    if c = '}' then
      if acc.isEmpty then .lit '{' :: .lit '}' :: scanToks none cs
      else .grp :: scanToks none cs
    else if c = '{' then .lit '{' :: (acc.reverse.map .lit ++ scanToks (some []) cs)
    else scanToks (some (c :: acc)) cs

/-- The ordered placeholder names returned by pathToRegex (its second
return value, collected with FindAllStringSubmatch). -/
def pathNames (path : String) : List String :=
  scanNames none path.data

/-- The replaced pattern text pathToRegex hands to regexp.Compile (before
anchoring): the path with every placeholder replaced by the capture group
([^/]+), every other character kept verbatim and unescaped. -/
def pathToks (path : String) : List RTok :=
  scanToks none path.data

/-- Recognizer for the capture group token. -/
def RTok.isGrp : RTok → Bool
  | .grp => true
  | .lit _ => false

@[simp] theorem RTok.isGrp_lit (c : Char) : (RTok.lit c).isGrp = false := rfl

@[simp] theorem RTok.isGrp_grp : RTok.grp.isGrp = true := rfl

/-- Number of capture groups in a compiled pattern. -/
def countGrp (toks : List RTok) : Nat :=
  toks.countP RTok.isGrp

/-- The RE2 metacharacters: characters of the non-placeholder path text
that do not stand for themselves in the compiled pattern, since pathToRegex
performs no escaping. -/
def metaChars : List Char :=
  ['.', '\\', '+', '*', '?', '(', ')', '|', '[', ']', '{', '}', '^', '$']

/-- A character that stands for itself in the compiled pattern. -/
def plainChar (c : Char) : Bool :=
  decide (c ∉ metaChars)

/-- A replaced-pattern symbol that compiles to itself: a plain literal
character or the placeholder group marker. -/
def litPlain : RTok → Bool
  | .lit c => plainChar c
  | .grp => true

/-- One fixed-width atom inside a literal parenthesized group: a plain
character or the dot. -/
inductive LAtom where
  | ach (c : Char)
  | adot
  deriving DecidableEq, Repr

/-- The compiled pattern as a regexp AST over the modelled alphabet: a
plain character, the dot (any character except newline), the placeholder
capture group ([^/]+), or a literal parenthesized capture group of
fixed-width content, in sequence (the pattern is anchored at both ends).
Capture groups are numbered left to right, as in RE2. -/
inductive Rx where
  | ch (c : Char)
  | dot
  | phGroup
  | litGroup (inner : List LAtom)
  deriving DecidableEq, Repr

/-- Recognizer for capture-group atoms. -/
def Rx.isGroup : Rx → Bool
  | .phGroup => true
  | .litGroup _ => true
  | .ch _ => false
  | .dot => false

@[simp] theorem Rx.isGroup_ch (c : Char) : (Rx.ch c).isGroup = false := rfl

@[simp] theorem Rx.isGroup_dot : Rx.dot.isGroup = false := rfl

@[simp] theorem Rx.isGroup_ph : Rx.phGroup.isGroup = true := rfl

@[simp] theorem Rx.isGroup_lg (inner : List LAtom) :
    (Rx.litGroup inner).isGroup = true := rfl

/-- Number of capture groups in a compiled pattern. -/
def countGroups (rx : List Rx) : Nat :=
  rx.countP Rx.isGroup

/-- A compiled pattern without literal parenthesized groups (the shape
compiled from a metacharacter-free path). -/
def noLitGroup (rx : List Rx) : Prop :=
  ∀ inner, Rx.litGroup inner ∉ rx

/-- Deterministic matching of the fixed-width content of a literal group:
the consumed text and the rest. -/
def atomsMatch : List LAtom → List Char → Option (List Char × List Char)
  | [], s => some ([], s)
  | _ :: _, [] => none
  | .ach c :: as, x :: s =>
    if x = c then (atomsMatch as s).map (fun p => (x :: p.1, p.2)) else none
  | .adot :: as, x :: s =>
    if x = '\n' then none
    else (atomsMatch as s).map (fun p => (x :: p.1, p.2))

mutual

/-- Fuel-indexed backtracking matcher for a compiled pattern against a full
string (the pattern is anchored). Returns the list of captured substrings,
one per capture group in left-to-right group order, or none when the
string is rejected. Placeholder-group matching is greedy (prefer the
longer capture first), as in Go regexp leftmost-first semantics; the dot
matches any character except newline; a literal group consumes its
fixed-width content and captures it. The fuel strictly exceeds the
recursion depth whenever it is at least tokens + characters + 2. -/
def rmatchF : Nat → List Rx → List Char → Option (List (List Char))
  | 0, _, _ => none
  | _ + 1, [], [] => some []
  | _ + 1, [], _ :: _ => none
  | _ + 1, .ch _ :: _, [] => none
  | n + 1, .ch c :: ts, x :: s => if x = c then rmatchF n ts s else none
  | _ + 1, .dot :: _, [] => none
  | n + 1, .dot :: ts, x :: s => if x = '\n' then none else rmatchF n ts s
  | _ + 1, .phGroup :: _, [] => none
  | n + 1, .phGroup :: ts, x :: s => if x = '/' then none else grpF n ts [x] s
  | n + 1, .litGroup inner :: ts, s =>
    match atomsMatch inner s with
    | some p => (rmatchF n ts p.2).map (fun caps => p.1 :: caps)
    | none => none

/-- Helper for rmatchF: the current placeholder group has already consumed
the characters in acc (reversed); greedily try to extend it with the next
character, falling back to closing the group here. -/
def grpF : Nat → List Rx → List Char → List Char → Option (List (List Char))
  | 0, _, _, _ => none
  | n + 1, ts, acc, [] => (rmatchF n ts []).map (fun caps => acc.reverse :: caps)
  | n + 1, ts, acc, x :: s =>
    if x = '/' then (rmatchF n ts (x :: s)).map (fun caps => acc.reverse :: caps)
    else
      match grpF n ts (x :: acc) s with
      | some r => some r
      | none => (rmatchF n ts (x :: s)).map (fun caps => acc.reverse :: caps)

end

/-- Matching a full concrete path against a compiled pattern
(FindStringSubmatch on the anchored regex): some caps on acceptance with
the captured substring of each group, none on rejection. -/
def rmatch (rx : List Rx) (s : List Char) : Option (List (List Char)) :=
  rmatchF (rx.length + s.length + 2) rx s

/-- Parse the content of a literal parenthesized group up to and including
its closing parenthesis. A missing closing parenthesis is a compile error;
nested parentheses, placeholder groups inside parentheses and the
unmodelled metacharacters are outside the modelled class (also none; no
theorem covers them). -/
def innerAtoms : List RTok → Option (List LAtom × List RTok)
  | [] => none
  | .grp :: _ => none
  | .lit c :: ts =>
    if c = ')' then some ([], ts)
    else if c = '.' then (innerAtoms ts).map (fun p => (LAtom.adot :: p.1, p.2))
    else if plainChar c then (innerAtoms ts).map (fun p => (LAtom.ach c :: p.1, p.2))
    else none

/-- Fuel-indexed compilation of the replaced pattern text, following RE2 on
the modelled alphabet: plain characters compile to themselves, the dot to
the any-character atom, balanced parentheses around fixed-width content to
a literal capture group, and the placeholder marker to its capture group.
An unbalanced parenthesis yields none, exactly where regexp.Compile fails
in the source and the route keeps a nil pattern. The unmodelled
metacharacters also yield none; no theorem covers paths containing them
(the theorems carry metacharacter-freeness hypotheses). -/
def compileSeqF : Nat → List RTok → Option (List Rx)
  | 0, _ => none
  | _ + 1, [] => some []
  | n + 1, .grp :: ts => (compileSeqF n ts).map (fun r => Rx.phGroup :: r)
  | n + 1, .lit c :: ts =>
    if c = '(' then
      match innerAtoms ts with
      | some p => (compileSeqF n p.2).map (fun r => Rx.litGroup p.1 :: r)
      | none => none
    else if c = ')' then none
    else if c = '.' then (compileSeqF n ts).map (fun r => Rx.dot :: r)
    else if plainChar c then (compileSeqF n ts).map (fun r => Rx.ch c :: r)
    else none

/-- Compilation of a replaced pattern text (regexp.Compile on the anchored
pattern): some compiled pattern, or none on failure. -/
def compileRx (toks : List RTok) : Option (List Rx) :=
  compileSeqF (toks.length + 1) toks

/-- What each replaced-pattern symbol of a metacharacter-free path
compiles to. -/
def rtokToRx : RTok → Rx
  | .lit c => .ch c
  | .grp => .phGroup

theorem scanNames_toks_length (st : Option (List Char)) (l : List Char) :
    (scanNames st l).length = countGrp (scanToks st l) := by
  induction l generalizing st with
  | nil =>
    cases st with
    | none => simp [scanNames, scanToks, countGrp]
    | some acc =>
      simp only [scanNames, scanToks, List.length_nil, countGrp]
      symm
      rw [List.countP_eq_zero]
      intro a ha
      rcases List.mem_cons.mp ha with h | h
      · subst h; simp
      · obtain ⟨c, _, rfl⟩ := List.mem_map.mp h
        simp
  | cons c cs ih =>
    cases st with
    | none =>
      by_cases h : c = '{' <;> simp [scanNames, scanToks, h, countGrp, ih]
    | some acc =>
      by_cases h : c = '}'
      · by_cases he : acc.isEmpty <;>
          simp [scanNames, scanToks, h, he, countGrp, ih]
      · by_cases h2 : c = '{' <;>
          simp [scanNames, scanToks, h, h2, countGrp, ih, List.countP_append,
            List.countP_map]

theorem scanNames_nil_toks (st : Option (List Char)) (l : List Char)
    (h : scanNames st l = []) :
    scanToks st l =
      (match st with
       | none => l.map .lit
       | some acc => .lit '{' :: (acc.reverse ++ l).map .lit) := by
  induction l generalizing st with
  | nil =>
    cases st <;> simp [scanToks]
  | cons c cs ih =>
    cases st with
    | none =>
      by_cases hc : c = '{'
      · have := ih (some []) (by simpa [scanNames, hc] using h)
        simp_all [scanNames, scanToks, hc]
      · have := ih none (by simpa [scanNames, hc] using h)
        simp_all [scanToks, hc]
    | some acc =>
      by_cases hc : c = '}'
      · by_cases he : acc.isEmpty
        · have := ih none (by simpa [scanNames, hc, he] using h)
          have hae : acc = [] := by simpa [List.isEmpty_iff] using he
          simp_all [scanToks, hc, he, hae]
        · exfalso
          simp [scanNames, hc, he] at h
      · by_cases h2 : c = '{'
        · have := ih (some []) (by simpa [scanNames, hc, h2] using h)
          simp_all [scanToks, hc, h2]
        · have := ih (some (c :: acc)) (by simpa [scanNames, hc, h2] using h)
          simp_all [scanToks, hc, h2]

/-- Shape of a successful match: one capture per group, each capture a
nonempty run of characters none of which is a slash. -/
theorem noLitGroup_tail (t : Rx) (ts : List Rx) (h : noLitGroup (t :: ts)) :
    noLitGroup ts :=
  fun inner hm => h inner (List.mem_cons_of_mem _ hm)

theorem rmatchF_litGroup (n : Nat) (inner : List LAtom) (ts : List Rx)
    (s : List Char) :
    rmatchF (n + 1) (.litGroup inner :: ts) s =
      match atomsMatch inner s with
      | some p => (rmatchF n ts p.2).map (fun caps => p.1 :: caps)
      | none => none := by
  cases s with
  | nil => cases inner <;> rfl
  | cons x xs => rfl

theorem rmatchF_shape :
    ∀ (n : Nat) (ts : List Rx) (s : List Char) (caps : List (List Char)),
      rmatchF n ts s = some caps →
      caps.length = countGroups ts ∧
        (noLitGroup ts → ∀ c ∈ caps, c ≠ [] ∧ '/' ∉ c) := by
  have main : ∀ (n : Nat),
      (∀ (ts : List Rx) (s : List Char) (caps : List (List Char)),
        rmatchF n ts s = some caps →
        caps.length = countGroups ts ∧
          (noLitGroup ts → ∀ c ∈ caps, c ≠ [] ∧ '/' ∉ c)) ∧
      (∀ (ts : List Rx) (acc : List Char) (s : List Char)
          (caps : List (List Char)),
        acc ≠ [] → '/' ∉ acc →
        grpF n ts acc s = some caps →
        caps.length = countGroups ts + 1 ∧
          (noLitGroup ts → ∀ c ∈ caps, c ≠ [] ∧ '/' ∉ c)) := by
    intro n
    induction n with
    | zero =>
      constructor
      · intro ts s caps h; simp [rmatchF] at h
      · intro ts acc s caps _ _ h; simp [grpF] at h
    | succ n ih =>
      obtain ⟨ihr, ihg⟩ := ih
      constructor
      · intro ts s caps h
        match ts, s with
        | [], [] =>
          simp [rmatchF] at h
          subst h
          simp [countGroups]
        | [], _ :: _ => simp [rmatchF] at h
        | .ch c :: ts, [] => simp [rmatchF] at h
        | .ch c :: ts, x :: s =>
          by_cases hx : x = c
          · simp [rmatchF, hx] at h
            have := ihr ts s caps h
            refine ⟨by simpa [countGroups] using this.1, ?_⟩
            intro hnl
            exact this.2 (noLitGroup_tail _ _ hnl)
          · simp [rmatchF, hx] at h
        | .dot :: ts, [] => simp [rmatchF] at h
        | .dot :: ts, x :: s =>
          by_cases hx : x = '\n'
          · simp [rmatchF, hx] at h
          · simp [rmatchF, hx] at h
            have := ihr ts s caps h
            refine ⟨by simpa [countGroups] using this.1, ?_⟩
            intro hnl
            exact this.2 (noLitGroup_tail _ _ hnl)
        | .phGroup :: ts, [] => simp [rmatchF] at h
        | .phGroup :: ts, x :: s =>
          by_cases hx : x = '/'
          · simp [rmatchF, hx] at h
          · simp [rmatchF, hx] at h
            have := ihg ts [x] s caps (by simp) (by simpa using Ne.symm hx) h
            refine ⟨by simpa [countGroups, Nat.add_comm] using this.1, ?_⟩
            intro hnl
            exact this.2 (noLitGroup_tail _ _ hnl)
        | .litGroup inner :: ts, s =>
          rw [rmatchF_litGroup] at h
          cases ha : atomsMatch inner s with
          | none => rw [ha] at h; simp at h
          | some p =>
            rw [ha] at h
            simp only [Option.map_eq_some'] at h
            obtain ⟨caps0, hc0, hrest⟩ := h
            have := ihr ts p.2 caps0 hc0
            refine ⟨by simp [← hrest, this.1, countGroups], ?_⟩
            intro hnl
            exact absurd (List.mem_cons_self _ _) (hnl inner)
      · intro ts acc s caps hne hns h
        match s with
        | [] =>
          simp [grpF] at h
          obtain ⟨caps0, hc0, hrest⟩ := h
          have := ihr ts [] caps0 hc0
          refine ⟨by simp [← hrest, this.1], ?_⟩
          intro hnl c hc
          rw [← hrest] at hc
          rcases List.mem_cons.mp hc with hc | hc
          · subst hc
            exact ⟨by simpa using hne, by simpa using hns⟩
          · exact this.2 hnl c hc
        | x :: s =>
          by_cases hx : x = '/'
          · simp [grpF, hx] at h
            obtain ⟨caps0, hc0, hrest⟩ := h
            have := ihr ts ('/' :: s) caps0 hc0
            refine ⟨by simp [← hrest, this.1], ?_⟩
            intro hnl c hc
            rw [← hrest] at hc
            rcases List.mem_cons.mp hc with hc | hc
            · subst hc
              exact ⟨by simpa using hne, by simpa using hns⟩
            · exact this.2 hnl c hc
          · simp only [grpF, if_neg hx] at h
            cases hg : grpF n ts (x :: acc) s with
            | some r =>
              rw [hg] at h
              have := ihg ts (x :: acc) s r (by simp)
                (by simp only [List.mem_cons, not_or]; exact ⟨Ne.symm hx, hns⟩) hg
              simp at h
              subst h
              exact this
            | none =>
              rw [hg] at h
              simp at h
              obtain ⟨caps0, hc0, hrest⟩ := h
              have := ihr ts (x :: s) caps0 hc0
              refine ⟨by simp [← hrest, this.1], ?_⟩
              intro hnl c hc
              rw [← hrest] at hc
              rcases List.mem_cons.mp hc with hc | hc
              · subst hc
                exact ⟨by simpa using hne, by simpa using hns⟩
              · exact this.2 hnl c hc
  intro n ts s caps h
  exact (main n).1 ts s caps h

theorem rmatch_shape (rx : List Rx) (s : List Char) (caps : List (List Char))
    (h : rmatch rx s = some caps) :
    caps.length = countGroups rx ∧
      (noLitGroup rx → ∀ c ∈ caps, c ≠ [] ∧ '/' ∉ c) :=
  rmatchF_shape _ rx s caps h

theorem rmatchF_all_ch_some (n : Nat) (l s : List Char) (caps : List (List Char))
    (h : rmatchF n (l.map .ch) s = some caps) : s = l ∧ caps = [] := by
  induction n generalizing l s caps with
  | zero => simp [rmatchF] at h
  | succ n ih =>
    match l, s with
    | [], [] =>
      simp [rmatchF] at h
      simp [← h]
    | [], _ :: _ => simp [rmatchF] at h
    | c :: l, [] => simp [rmatchF] at h
    | c :: l, x :: s =>
      by_cases hx : x = c
      · simp only [List.map_cons, rmatchF, if_pos hx] at h
        have := ih l s caps h
        simp [hx, this.1, this.2]
      · simp [rmatchF, hx] at h

theorem rmatchF_all_ch_self (n : Nat) (l : List Char) (h : l.length < n) :
    rmatchF n (l.map .ch) l = some [] := by
  induction n generalizing l with
  | zero => omega
  | succ n ih =>
    match l with
    | [] => simp [rmatchF]
    | c :: l =>
      simp only [List.map_cons, rmatchF, if_pos rfl]
      exact ih l (by simpa using Nat.lt_of_succ_lt_succ h)

/-- A pattern compiled from a metacharacter-free path without placeholders
(all plain characters) accepts exactly the path itself and captures
nothing. -/
theorem rmatch_all_ch (l s : List Char) (caps : List (List Char)) :
    rmatch (l.map .ch) s = some caps ↔ s = l ∧ caps = [] := by
  constructor
  · exact rmatchF_all_ch_some _ l s caps
  · rintro ⟨rfl, rfl⟩
    exact rmatchF_all_ch_self _ s (by simp; omega)

@[simp] theorem isGroup_rtokToRx (t : RTok) : (rtokToRx t).isGroup = t.isGrp := by
  cases t <;> rfl

theorem countGroups_map_rtok (l : List RTok) :
    countGroups (l.map rtokToRx) = countGrp l := by
  rw [countGroups, List.countP_map, countGrp]
  exact List.countP_congr (fun t _ => by simp)

theorem noLitGroup_map_rtok (l : List RTok) : noLitGroup (l.map rtokToRx) := by
  intro inner hm
  obtain ⟨t, _, ht⟩ := List.mem_map.mp hm
  cases t <;> simp [rtokToRx] at ht

theorem plainChar_notMem (c : Char) (h : plainChar c = true) : c ∉ metaChars :=
  of_decide_eq_true h

theorem compileSeqF_plain (n : Nat) (l : List RTok) (hlen : l.length < n)
    (h : ∀ t ∈ l, litPlain t = true) :
    compileSeqF n l = some (l.map rtokToRx) := by
  induction n generalizing l with
  | zero => omega
  | succ n ih =>
    match l with
    | [] => simp [compileSeqF]
    | .grp :: ts =>
      have := ih ts (by simpa using Nat.lt_of_succ_lt_succ hlen)
        (fun t ht => h t (List.mem_cons_of_mem _ ht))
      simp [compileSeqF, this, rtokToRx]
    | .lit c :: ts =>
      have hc : plainChar c = true := by
        simpa [litPlain] using h _ (List.mem_cons_self _ _)
      have hnm : c ∉ metaChars := plainChar_notMem c hc
      have h1 : c ≠ '(' := fun hh => hnm (by rw [hh]; decide)
      have h2 : c ≠ ')' := fun hh => hnm (by rw [hh]; decide)
      have h3 : c ≠ '.' := fun hh => hnm (by rw [hh]; decide)
      have := ih ts (by simpa using Nat.lt_of_succ_lt_succ hlen)
        (fun t ht => h t (List.mem_cons_of_mem _ ht))
      simp [compileSeqF, h1, h2, h3, hc, this, rtokToRx]

/-- Compilation of a metacharacter-free replaced pattern succeeds and is
the pointwise image: plain characters to themselves, placeholder markers
to placeholder groups. -/
theorem compileRx_plain (toks : List RTok) (h : ∀ t ∈ toks, litPlain t = true) :
    compileRx toks = some (toks.map rtokToRx) :=
  compileSeqF_plain _ toks (by omega) h

/-- Spec-side description of a path pattern as a sequence of declared
segments: literal text runs and placeholder holes, in declaration order.
A path like /hello/\x7bname\x7d is built from the segments
[chunk "/hello/", hole "name"]. -/
inductive Seg where
  | chunk (s : List Char)
  | hole (nm : List Char)

/-- Well-formedness of a declared segment: literal text consists of plain
characters only (no regexp metacharacters, hence no braces), and a
placeholder name is nonempty and brace-free, exactly the class matched by
the Go placeholder pattern. The plainness restriction scopes the declared
paths to those whose unescaped text compiles to the pattern the
declaration means. -/
def Seg.ok : Seg → Prop
  | .chunk s => ∀ c ∈ s, plainChar c = true
  | .hole nm => nm ≠ [] ∧ '{' ∉ nm ∧ '}' ∉ nm

instance : DecidablePred Seg.ok := fun g =>
  match g with
  | .chunk s => inferInstanceAs (Decidable (∀ c ∈ s, plainChar c = true))
  | .hole nm => inferInstanceAs (Decidable (nm ≠ [] ∧ '{' ∉ nm ∧ '}' ∉ nm))

theorem chunkPlain_no_open (s : List Char) (h : ∀ c ∈ s, plainChar c = true) :
    '{' ∉ s :=
  fun hm => absurd (h '{' hm) (by decide)

/-- The concrete path text declared by a list of segments. -/
def buildSegs : List Seg → List Char
  | [] => []
  | .chunk s :: r => s ++ buildSegs r
  | .hole nm :: r => '{' :: (nm ++ '}' :: buildSegs r)

/-- The placeholder names of a segment list, in declaration order. -/
def declaredNames : List Seg → List String
  | [] => []
  | .chunk _ :: r => declaredNames r
  | .hole nm :: r => nm.asString :: declaredNames r

theorem scanNames_chunk (s l : List Char) (h : '{' ∉ s) :
    scanNames none (s ++ l) = scanNames none l := by
  induction s with
  | nil => simp
  | cons c cs ih =>
    have hc : c ≠ '{' := fun hc => h (by simp [hc])
    simp only [List.cons_append, scanNames, if_neg hc]
    exact ih (fun hm => h (List.mem_cons_of_mem _ hm))

theorem scanToks_chunk (s l : List Char) (h : '{' ∉ s) :
    scanToks none (s ++ l) = s.map .lit ++ scanToks none l := by
  induction s with
  | nil => simp
  | cons c cs ih =>
    have hc : c ≠ '{' := fun hc => h (by simp [hc])
    simp only [List.cons_append, scanToks, if_neg hc, List.map_cons, List.append_eq]
    rw [ih (fun hm => h (List.mem_cons_of_mem _ hm))]

theorem scanNames_hole (nm : List Char) (acc l : List Char)
    (h1 : '{' ∉ nm) (h2 : '}' ∉ nm) (hne : acc ≠ [] ∨ nm ≠ []) :
    scanNames (some acc) (nm ++ '}' :: l) =
      (acc.reverse ++ nm).asString :: scanNames none l := by
  induction nm generalizing acc with
  | nil =>
    have hacc : acc ≠ [] := by
      rcases hne with h | h
      · exact h
      · exact absurd rfl h
    have : ¬acc.isEmpty := by simpa [List.isEmpty_iff] using hacc
    simp [scanNames, this]
  | cons c cs ih =>
    have hc1 : c ≠ '}' := fun hc => h2 (by simp [hc])
    have hc2 : c ≠ '{' := fun hc => h1 (by simp [hc])
    simp only [List.cons_append, scanNames, if_neg hc1, if_neg hc2, List.append_eq]
    rw [ih (c :: acc) (fun hm => h1 (List.mem_cons_of_mem _ hm))
      (fun hm => h2 (List.mem_cons_of_mem _ hm)) (Or.inl (by simp))]
    simp

theorem scanToks_hole (nm : List Char) (acc l : List Char)
    (h1 : '{' ∉ nm) (h2 : '}' ∉ nm) (hne : acc ≠ [] ∨ nm ≠ []) :
    scanToks (some acc) (nm ++ '}' :: l) = .grp :: scanToks none l := by
  induction nm generalizing acc with
  | nil =>
    have hacc : acc ≠ [] := by
      rcases hne with h | h
      · exact h
      · exact absurd rfl h
    have : ¬acc.isEmpty := by simpa [List.isEmpty_iff] using hacc
    simp [scanToks, this]
  | cons c cs ih =>
    have hc1 : c ≠ '}' := fun hc => h2 (by simp [hc])
    have hc2 : c ≠ '{' := fun hc => h1 (by simp [hc])
    simp only [List.cons_append, scanToks, if_neg hc1, if_neg hc2, List.append_eq]
    exact ih (c :: acc) (fun hm => h1 (List.mem_cons_of_mem _ hm))
      (fun hm => h2 (List.mem_cons_of_mem _ hm)) (Or.inl (by simp))

/-- The placeholder names found by the Go scan over a declared path are
exactly the declared hole names, in declaration order. -/
theorem scanNames_buildSegs (segs : List Seg) (hok : ∀ g ∈ segs, g.ok) :
    scanNames none (buildSegs segs) = declaredNames segs := by
  induction segs with
  | nil => simp [buildSegs, declaredNames, scanNames]
  | cons g r ih =>
    have hr : ∀ g ∈ r, g.ok := fun g hg => hok g (List.mem_cons_of_mem _ hg)
    cases g with
    | chunk s =>
      have hs := hok _ (List.mem_cons_self _ _)
      simp only [buildSegs, declaredNames]
      rw [scanNames_chunk s _ (chunkPlain_no_open s hs), ih hr]
    | hole nm =>
      obtain ⟨hne, h1, h2⟩ := hok _ (List.mem_cons_self _ _)
      simp only [buildSegs, declaredNames, scanNames, if_pos rfl]
      rw [scanNames_hole nm [] _ h1 h2 (Or.inr hne), ih hr]
      simp

/-- The replaced pattern text of a declared path: literal tokens for the
chunk characters and one placeholder marker per hole. -/
def segsToks : List Seg → List RTok
  | [] => []
  | .chunk s :: r => s.map .lit ++ segsToks r
  | .hole _ :: r => .grp :: segsToks r

theorem scanToks_buildSegs (segs : List Seg) (hok : ∀ g ∈ segs, g.ok) :
    scanToks none (buildSegs segs) = segsToks segs := by
  induction segs with
  | nil => simp [buildSegs, segsToks, scanToks]
  | cons g r ih =>
    have hr : ∀ g ∈ r, g.ok := fun g hg => hok g (List.mem_cons_of_mem _ hg)
    cases g with
    | chunk s =>
      have hs := hok _ (List.mem_cons_self _ _)
      simp only [buildSegs, segsToks]
      rw [scanToks_chunk s _ (chunkPlain_no_open s hs), ih hr]
    | hole nm =>
      obtain ⟨hne, h1, h2⟩ := hok _ (List.mem_cons_self _ _)
      simp only [buildSegs, segsToks, scanToks, if_pos rfl]
      rw [scanToks_hole nm [] _ h1 h2 (Or.inr hne), ih hr]
      simp

theorem segsToks_plain (segs : List Seg) (hok : ∀ g ∈ segs, g.ok) :
    ∀ t ∈ segsToks segs, litPlain t = true := by
  induction segs with
  | nil => simp [segsToks]
  | cons g r ih =>
    have hr : ∀ g ∈ r, g.ok := fun g hg => hok g (List.mem_cons_of_mem _ hg)
    cases g with
    | chunk s =>
      intro t ht
      simp only [segsToks, List.mem_append] at ht
      rcases ht with ht | ht
      · obtain ⟨c, hc, rfl⟩ := List.mem_map.mp ht
        have := hok _ (List.mem_cons_self _ _)
        simpa [litPlain] using this c hc
      · exact ih hr t ht
    | hole nm =>
      intro t ht
      rcases List.mem_cons.mp ht with rfl | ht
      · rfl
      · exact ih hr t ht

/-- C1 as amended: for every route whose declared path consists of
metacharacter-free literal chunks and placeholders, compilation succeeds
and is the plain image of the replaced text, matching a concrete path
against the compiled pattern either rejects it or yields exactly one
captured substring per placeholder position, each capture a nonempty run
of characters never crossing a slash, and the list of placeholder names
is the declared names in declaration order (so findMatchingRoute pairs
the i-th name with the i-th capture). -/
theorem plain_pattern_match_captures_per_placeholder (segs : List Seg)
    (s : String) (hok : ∀ g ∈ segs, g.ok) (_hph : declaredNames segs ≠ []) :
    pathNames (buildSegs segs).asString = declaredNames segs ∧
    compileRx (pathToks (buildSegs segs).asString) =
      some ((pathToks (buildSegs segs).asString).map rtokToRx) ∧
    (rmatch ((pathToks (buildSegs segs).asString).map rtokToRx) s.data = none ∨
      ∃ caps,
        rmatch ((pathToks (buildSegs segs).asString).map rtokToRx) s.data =
          some caps ∧
        caps.length = (pathNames (buildSegs segs).asString).length ∧
        ∀ c ∈ caps, c ≠ [] ∧ '/' ∉ c) := by
  have hdata : ((buildSegs segs).asString).data = buildSegs segs :=
    List.toList_asString _
  have hnames : pathNames (buildSegs segs).asString = declaredNames segs := by
    rw [pathNames, hdata, scanNames_buildSegs segs hok]
  have hplain : ∀ t ∈ pathToks (buildSegs segs).asString, litPlain t = true := by
    rw [pathToks, hdata, scanToks_buildSegs segs hok]
    exact segsToks_plain segs hok
  refine ⟨hnames, compileRx_plain _ hplain, ?_⟩
  cases hm : rmatch ((pathToks (buildSegs segs).asString).map rtokToRx) s.data with
  | none => exact Or.inl rfl
  | some caps =>
    refine Or.inr ⟨caps, rfl, ?_, (rmatch_shape _ _ _ hm).2 (noLitGroup_map_rtok _)⟩
    have hcount := (rmatch_shape _ _ _ hm).1
    rw [hcount, countGroups_map_rtok, pathToks, pathNames]
    exact (scanNames_toks_length none _).symm

/-- Witness for C1 (amended) at the concrete route pattern
/hello/\x7bname\x7d and the concrete request path /hello/world. -/
theorem plain_pattern_match_captures_per_placeholder_witness :
    (∀ g ∈ [Seg.chunk "/hello/".data, Seg.hole "name".data], g.ok) ∧
    declaredNames [Seg.chunk "/hello/".data, Seg.hole "name".data] ≠ [] ∧
    (pathNames (buildSegs [Seg.chunk "/hello/".data, Seg.hole "name".data]).asString =
        declaredNames [Seg.chunk "/hello/".data, Seg.hole "name".data] ∧
      compileRx (pathToks (buildSegs [Seg.chunk "/hello/".data,
          Seg.hole "name".data]).asString) =
        some ((pathToks (buildSegs [Seg.chunk "/hello/".data,
          Seg.hole "name".data]).asString).map rtokToRx) ∧
      (rmatch ((pathToks (buildSegs [Seg.chunk "/hello/".data,
            Seg.hole "name".data]).asString).map rtokToRx) "/hello/world".data =
          none ∨
        ∃ caps, rmatch ((pathToks (buildSegs [Seg.chunk "/hello/".data,
            Seg.hole "name".data]).asString).map rtokToRx) "/hello/world".data =
            some caps ∧
          caps.length = (pathNames (buildSegs [Seg.chunk "/hello/".data,
            Seg.hole "name".data]).asString).length ∧
          ∀ c ∈ caps, c ≠ [] ∧ '/' ∉ c)) :=
  ⟨by decide, by decide,
    plain_pattern_match_captures_per_placeholder
      [Seg.chunk "/hello/".data, Seg.hole "name".data] "/hello/world"
      (by decide) (by decide)⟩

/-- Route metadata as stored in the registry (RouteInfo in the Go source;
the OpenAPI-only fields Parameters, RequestBody, Responses and
Dependencies are not modelled, as no examined property depends on them). -/
structure RouteInfo where
  path : String
  method : String
  message : String
  description : String
  pathRegex : Option (List Rx)
  paramNames : List String
  deriving DecidableEq, Repr

/-- The routes registry: a Go map from key strings to RouteInfo, modelled
as an association list with pairwise distinct keys; the list order stands
for the unspecified Go map iteration order. -/
abbrev Registry := List (String × RouteInfo)

/-- Go map indexing routes[key]. -/
def lookupKey : Registry → String → Option RouteInfo
  | [], _ => none
  | (k, r) :: rest, key => if k = key then some r else lookupKey rest key

/-- Go map assignment routes[key] = r: replace the entry if the key is
present, otherwise add one. -/
def insertKey : Registry → String → RouteInfo → Registry
  | [], key, r => [(key, r)]
  | (k, r0) :: rest, key, r =>
    if k = key then (key, r) :: rest else (k, r0) :: insertKey rest key r

/-- Characterwise uppercasing, modelling strings.ToUpper on the method
strings that appear in registrations. -/
def goToUpper (s : String) : String :=
  (s.data.map Char.toUpper).asString

/-- The RouteInfo value built by RegisterRoute: the method is uppercased
and the path is compiled by pathToRegex; compilation failure leaves the
route without a pattern (exact-match only), as in the source. -/
def mkRoute (path method message desc : String) : RouteInfo :=
  { path := path, method := goToUpper method, message := message,
    description := desc, pathRegex := compileRx (pathToks path),
    paramNames := pathNames path }

/-- RegisterRoute: store the route under the key path + method (method
uppercased), overwriting any previous entry with the same key. -/
def registerRoute (routes : Registry) (path method message desc : String) :
    Registry :=
  insertKey routes (path ++ goToUpper method) (mkRoute path method message desc)

/-- The path-parameter map built by findMatchingRoute on a pattern hit: the
loop pairs the i-th parameter name with capture i+1 of the submatch list,
guarded by i+1 < len(matches), which is exactly a zip of the names with
the capture list. -/
def extractParams (names : List String) (caps : List (List Char)) :
    List (String × String) :=
  (names.zip caps).map (fun p => (p.1, p.2.asString))

/-- The pattern-scanning loop of findMatchingRoute: iterate the registry,
and return the first route whose method equals the request method, whose
compiled pattern is present and accepts the path, and whose submatch list
has more than one entry (at least one capture), together with the
extracted path parameters. -/
def scanRoutes : Registry → String → String →
    Option (RouteInfo × List (String × String))
  | [], _, _ => none
  | (_, r) :: rest, path, method =>
    match r.pathRegex with
    | some toks =>
      if r.method = method then
        match rmatch toks path.data with
        | some caps =>
          if caps.isEmpty then scanRoutes rest path method
          else some (r, extractParams r.paramNames caps)
        | none => scanRoutes rest path method
      else scanRoutes rest path method
    | none => scanRoutes rest path method

/-- findMatchingRoute: exact lookup under the key path + method first
(returning an empty parameter map), with pattern scanning only on an exact
miss. -/
def findMatchingRoute (routes : Registry) (path method : String) :
    Option (RouteInfo × List (String × String)) :=
  match lookupKey routes (path ++ method) with
  | some r => some (r, [])
  | none => scanRoutes routes path method

/-- Invariant of every registry state reachable through RegisterRoute and
RegisterRouteWithParams: keys are pairwise distinct (it is a map), every
entry is stored under the key path + method of its route, and the stored
compiled pattern and parameter names are the ones pathToRegex produces
from the stored path. -/
def RegistryWF (routes : Registry) : Prop :=
  (routes.map Prod.fst).Nodup ∧
  ∀ e ∈ routes, e.1 = e.2.path ++ e.2.method ∧
    e.2.pathRegex = compileRx (pathToks e.2.path) ∧
    e.2.paramNames = pathNames e.2.path

instance (routes : Registry) : Decidable (RegistryWF routes) :=
  inferInstanceAs (Decidable (_ ∧ _))

/-- A route path in the modelled regime: every literal character of its
replaced pattern text is plain, so the unescaped compilation is the
pointwise one and the pattern means what the route declares. The theorems
that depend on pattern-scan semantics are scoped to registries of such
paths; the metacharacter counterexamples show why they must be. -/
def plainPath (p : String) : Prop :=
  ∀ t ∈ pathToks p, litPlain t = true

instance (p : String) : Decidable (plainPath p) :=
  inferInstanceAs (Decidable (∀ t ∈ pathToks p, litPlain t = true))

theorem mem_insertKey (l : Registry) (key : String) (r : RouteInfo) (e) :
    e ∈ insertKey l key r → e = (key, r) ∨ e ∈ l := by
  induction l with
  | nil => simp [insertKey]
  | cons hd rest ih =>
    obtain ⟨k0, r0⟩ := hd
    by_cases hk : k0 = key
    · simp only [insertKey, if_pos hk]
      intro h
      rcases List.mem_cons.mp h with h | h
      · exact Or.inl h
      · exact Or.inr (List.mem_cons_of_mem _ h)
    · simp only [insertKey, if_neg hk]
      intro h
      rcases List.mem_cons.mp h with h | h
      · exact Or.inr (by simp [h])
      · rcases ih h with h | h
        · exact Or.inl h
        · exact Or.inr (List.mem_cons_of_mem _ h)

theorem keys_insertKey_nodup (l : Registry) (key : String) (r : RouteInfo)
    (h : (l.map Prod.fst).Nodup) :
    ((insertKey l key r).map Prod.fst).Nodup := by
  induction l with
  | nil => simp [insertKey]
  | cons hd rest ih =>
    obtain ⟨k0, r0⟩ := hd
    simp only [List.map_cons, List.nodup_cons] at h
    by_cases hk : k0 = key
    · subst hk
      simpa [insertKey, List.nodup_cons] using h
    · simp only [insertKey, if_neg hk, List.map_cons, List.nodup_cons]
      refine ⟨?_, ih h.2⟩
      intro hmem
      obtain ⟨e, he, hfst⟩ := List.mem_map.mp hmem
      rcases mem_insertKey rest key r e he with rfl | he2
      · exact hk hfst.symm
      · exact h.1 (List.mem_map.mpr ⟨e, he2, hfst⟩)

/-- The empty registry satisfies the invariant. -/
theorem registryWF_nil : RegistryWF [] := by
  constructor <;> simp

/-- RegisterRoute preserves the registry invariant, so RegistryWF holds of
every state reachable through route registration. -/
theorem registerRoute_wf (routes : Registry) (p m msg d : String)
    (hwf : RegistryWF routes) : RegistryWF (registerRoute routes p m msg d) := by
  obtain ⟨hnd, hent⟩ := hwf
  constructor
  · exact keys_insertKey_nodup _ _ _ hnd
  · intro e he
    rcases mem_insertKey _ _ _ e he with rfl | he2
    · exact ⟨rfl, rfl, rfl⟩
    · exact hent e he2

theorem lookupKey_of_mem_nodup (l : Registry) (k : String) (r : RouteInfo)
    (hnd : (l.map Prod.fst).Nodup) (hmem : (k, r) ∈ l) :
    lookupKey l k = some r := by
  induction l with
  | nil => simp at hmem
  | cons hd rest ih =>
    obtain ⟨k0, r0⟩ := hd
    simp only [List.map_cons, List.nodup_cons] at hnd
    rcases List.mem_cons.mp hmem with h | h
    · obtain ⟨h1, h2⟩ := Prod.mk.injEq .. ▸ h
      simp [lookupKey, ← h1, h2]
    · have hk : k0 ≠ k := by
        intro hk
        subst hk
        exact hnd.1 (List.mem_map.mpr ⟨(k0, r), h, rfl⟩)
      simp only [lookupKey, if_neg hk]
      exact ih hnd.2 h

theorem lookupKey_eq_none_iff (l : Registry) (key : String) :
    lookupKey l key = none ↔ ∀ e ∈ l, e.1 ≠ key := by
  induction l with
  | nil => simp [lookupKey]
  | cons hd rest ih =>
    obtain ⟨k0, r0⟩ := hd
    by_cases hk : k0 = key
    · simp [lookupKey, hk]
    · simp [lookupKey, hk, ih]

/-- C2: For every well-formed registry state and every (path, method) pair
registered in it (a stored route with that path and that method), the
lookup returns that route through the exact-identity branch with an empty
path-parameter map and never reaches the pattern scan, whatever other
routes the registry holds. -/
theorem exact_lookup_never_scans (routes : Registry) (path method : String)
    (r : RouteInfo) (hwf : RegistryWF routes) (hreg : ∃ k, (k, r) ∈ routes)
    (hp : r.path = path) (hm : r.method = method) :
    findMatchingRoute routes path method = some (r, []) := by
  obtain ⟨k, hk⟩ := hreg
  have hkey : k = path ++ method := by
    have h1 := (hwf.2 (k, r) hk).1
    simp only at h1
    rw [h1, hp, hm]
  subst hkey
  rw [findMatchingRoute, lookupKey_of_mem_nodup _ _ _ hwf.1 hk]

/-- Witness for C2: a registry holding GET /users/\x7bid\x7d and
GET /users/me; looking up the registered pair (/users/me, GET) returns
that route with no parameters even though the pattern of the other route
also accepts the path /users/me. -/
theorem exact_lookup_never_scans_witness :
    (RegistryWF (registerRoute (registerRoute [] "/users/\x7bid\x7d" "GET" "m1" "d1")
        "/users/me" "GET" "m2" "d2") ∧
      (∃ rx caps, compileRx (pathToks "/users/\x7bid\x7d") = some rx ∧
        rmatch rx "/users/me".data = some caps ∧ caps ≠ []) ∧
      (mkRoute "/users/me" "GET" "m2" "d2").path = "/users/me" ∧
      (mkRoute "/users/me" "GET" "m2" "d2").method = "GET") ∧
    findMatchingRoute (registerRoute (registerRoute [] "/users/\x7bid\x7d" "GET" "m1" "d1")
        "/users/me" "GET" "m2" "d2") "/users/me" "GET" =
      some (mkRoute "/users/me" "GET" "m2" "d2", []) :=
  ⟨⟨by decide,
      ⟨[.ch '/', .ch 'u', .ch 's', .ch 'e', .ch 'r', .ch 's', .ch '/',
          .phGroup], [['m', 'e']], by decide, by decide, by decide⟩,
      by decide, by decide⟩,
    exact_lookup_never_scans _ "/users/me" "GET" _ (by decide)
      ⟨"/users/meGET", by decide⟩ (by decide) (by decide)⟩

/-- A registry entry that the pattern scan considers a candidate: the
method matches and the stored compiled pattern accepts the path. -/
def scanHit (path method : String) (e : String × RouteInfo) : Prop :=
  e.2.method = method ∧
    ∃ toks, e.2.pathRegex = some toks ∧ (rmatch toks path.data).isSome

instance (path method : String) (e : String × RouteInfo) :
    Decidable (scanHit path method e) := by
  unfold scanHit
  cases e.2.pathRegex with
  | none =>
    exact isFalse (fun h => by
      obtain ⟨_, toks, htk, _⟩ := h
      simp at htk)
  | some toks => exact inferInstanceAs (Decidable (_ ∧ _))

theorem scanRoutes_skip (e : String × RouteInfo) (rest : Registry)
    (path method : String) (h : ¬ scanHit path method e) :
    scanRoutes (e :: rest) path method = scanRoutes rest path method := by
  obtain ⟨k, r⟩ := e
  cases hr : r.pathRegex with
  | none => simp [scanRoutes, hr]
  | some toks =>
    by_cases hm : r.method = method
    · cases hm2 : rmatch toks path.data with
      | none => simp [scanRoutes, hr, hm, hm2]
      | some caps =>
        exfalso
        exact h ⟨hm, toks, hr, by simp [hm2]⟩
    · simp [scanRoutes, hr, hm]

theorem scanRoutes_append_skip (pre rest : Registry) (path method : String)
    (h : ∀ e ∈ pre, ¬ scanHit path method e) :
    scanRoutes (pre ++ rest) path method = scanRoutes rest path method := by
  induction pre with
  | nil => simp
  | cons e pre ih =>
    rw [List.cons_append, scanRoutes_skip e _ _ _ (h e (List.mem_cons_self _ _))]
    exact ih (fun e' he => h e' (List.mem_cons_of_mem _ he))

theorem scanRoutes_cons_hit (e : String × RouteInfo) (rest : Registry)
    (path method : String) (rx : List Rx) (caps : List (List Char))
    (hr : e.2.pathRegex = some rx) (hm : e.2.method = method)
    (hmt : rmatch rx path.data = some caps) (hne : caps ≠ []) :
    scanRoutes (e :: rest) path method =
      some (e.2, extractParams e.2.paramNames caps) := by
  obtain ⟨k, r⟩ := e
  simp only at hr hm
  simp [scanRoutes, hr, hm, hmt, hne]

/-- If the stored pattern of a metacharacter-free path (compiled from the
stored path, as the invariant guarantees) accepts the request path but
captures nothing, then the pattern has no groups, so the stored path has
no placeholders, the pattern is all plain characters, and the request path
is the stored path itself; the entry key is then exactly the exact-lookup
key. An exact miss therefore forces at least one capture at every
accepting same-method entry with a metacharacter-free path. -/
theorem caps_ne_nil_of_miss (e : String × RouteInfo) (path method : String)
    (rx : List Rx) (caps : List (List Char))
    (hplain : plainPath e.2.path)
    (hkey : e.1 = e.2.path ++ e.2.method)
    (hrx : e.2.pathRegex = compileRx (pathToks e.2.path))
    (htoks : e.2.pathRegex = some rx)
    (hmt : rmatch rx path.data = some caps)
    (hm : e.2.method = method)
    (hne : e.1 ≠ path ++ method) : caps ≠ [] := by
  intro hcaps
  subst hcaps
  have hcomp : compileRx (pathToks e.2.path) =
      some ((pathToks e.2.path).map rtokToRx) :=
    compileRx_plain _ hplain
  have htk : rx = (pathToks e.2.path).map rtokToRx := by
    rw [htoks, hcomp] at hrx
    exact Option.some.inj hrx
  have hcount := (rmatch_shape _ _ _ hmt).1
  rw [htk, countGroups_map_rtok] at hcount
  have hnames : scanNames none e.2.path.data = [] := by
    have hlen : (scanNames none e.2.path.data).length = 0 := by
      rw [scanNames_toks_length none e.2.path.data, ← pathToks, ← hcount]
      rfl
    exact List.eq_nil_of_length_eq_zero hlen
  have hlit : pathToks e.2.path = e.2.path.data.map .lit := by
    rw [pathToks]
    exact scanNames_nil_toks none e.2.path.data hnames
  have hch : rx = e.2.path.data.map .ch := by
    rw [htk, hlit, List.map_map]
    rfl
  rw [hch] at hmt
  have hpp : path.data = e.2.path.data := ((rmatch_all_ch _ _ _).mp hmt).1
  have hpath : path = e.2.path := by
    rw [← String.asString_toList path, ← String.asString_toList e.2.path]
    exact congrArg _ hpp
  exact hne (by rw [hkey, hpath, hm])

/-- C1 counterexample: for a route whose path carries parentheses in its
literal text, the unescaped compilation adds a capture group, so matching
no longer yields one capture per placeholder. The path /x(y)/\x7bid\x7d
compiles to a pattern with two capture groups; the request /xy/5 is
accepted with captures y (the literal group) and 5 (the placeholder
component), one more than the single declared placeholder, and the
extraction pairs the name id with the first capture y instead of the
path component 5 the placeholder matched. -/
theorem metachar_group_miscount_cex :
    pathNames "/x(y)/\x7bid\x7d" = ["id"] ∧
    compileRx (pathToks "/x(y)/\x7bid\x7d") =
      some [Rx.ch '/', Rx.ch 'x', Rx.litGroup [LAtom.ach 'y'], Rx.ch '/',
        Rx.phGroup] ∧
    rmatch [Rx.ch '/', Rx.ch 'x', Rx.litGroup [LAtom.ach 'y'], Rx.ch '/',
        Rx.phGroup] "/xy/5".data = some [['y'], ['5']] ∧
    ¬ ([['y'], ['5']] : List (List Char)).length =
        (pathNames "/x(y)/\x7bid\x7d").length ∧
    extractParams (pathNames "/x(y)/\x7bid\x7d") [['y'], ['5']] =
      [("id", "y")] := by
  refine ⟨by decide, by decide, by decide, by decide, by decide⟩

/-- C3 counterexample: the scan does not return every first accepting
same-method route. The path /a.b compiles (unescaped) to a pattern whose
dot matches any character, so GET /a.b is registered with a pattern that
accepts the request path /aXb with no exact entry and an equal method; the
claim says the lookup returns it, but the scan requires more than one
submatch entry and this capture-free route is skipped, so the lookup
reports not found. -/
theorem metachar_route_not_found_cex :
    lookupKey (registerRoute [] "/a.b" "GET" "m" "d") ("/aXb" ++ "GET") =
      none ∧
    (mkRoute "/a.b" "GET" "m" "d").pathRegex =
      some [Rx.ch '/', Rx.ch 'a', Rx.dot, Rx.ch 'b'] ∧
    rmatch [Rx.ch '/', Rx.ch 'a', Rx.dot, Rx.ch 'b'] "/aXb".data = some [] ∧
    (mkRoute "/a.b" "GET" "m" "d").method = "GET" ∧
    findMatchingRoute (registerRoute [] "/a.b" "GET" "m" "d") "/aXb" "GET" =
      none := by
  refine ⟨by decide, by decide, by decide, by decide, by decide⟩

/-- C3 as amended: for every request (path, method) with no exact-identity
entry in a well-formed registry whose route paths are metacharacter-free,
the lookup returns the first route in registry iteration order whose
method equals the request method and whose compiled pattern accepts the
path, together with the parameters extracted from the path (parameter
names zipped with the captures); when no registered route accepts the path
for that method, the lookup reports not found. -/
theorem no_exact_first_pattern_wins (routes : Registry) (path method : String)
    (hwf : RegistryWF routes)
    (hplain : ∀ e ∈ routes, plainPath e.2.path)
    (hmiss : lookupKey routes (path ++ method) = none) :
    ((∀ e ∈ routes, ¬ scanHit path method e) →
      findMatchingRoute routes path method = none) ∧
    (∀ pre e post rx caps, routes = pre ++ e :: post →
      (∀ e' ∈ pre, ¬ scanHit path method e') →
      e.2.method = method → e.2.pathRegex = some rx →
      rmatch rx path.data = some caps →
      findMatchingRoute routes path method =
        some (e.2, extractParams e.2.paramNames caps)) := by
  constructor
  · intro hall
    rw [findMatchingRoute, hmiss]
    have := scanRoutes_append_skip routes [] path method hall
    simpa using this
  · intro pre e post rx caps hsplit hpre hm hrx hmt
    have hmem : e ∈ routes := by
      rw [hsplit]
      exact List.mem_append_right _ (List.mem_cons_self _ _)
    have hfacts := hwf.2 e hmem
    have hne : e.1 ≠ path ++ method := by
      exact (lookupKey_eq_none_iff routes (path ++ method)).mp hmiss e hmem
    have hcaps : caps ≠ [] :=
      caps_ne_nil_of_miss e path method rx caps (hplain e hmem) hfacts.1
        hfacts.2.1 hrx hmt hm hne
    rw [findMatchingRoute, hmiss, hsplit, scanRoutes_append_skip pre _ _ _ hpre,
      scanRoutes_cons_hit e post path method rx caps hrx hm hmt hcaps]

/-- A two-route registry used to exhibit the pattern-scan fallback:
GET /a/\x7bx\x7d registered first, GET /b/\x7by\x7d second. -/
def demoRegistry : Registry :=
  registerRoute (registerRoute [] "/a/\x7bx\x7d" "GET" "m1" "d1")
    "/b/\x7by\x7d" "GET" "m2" "d2"

/-- Witness for C3 (amended) at the request GET /b/q against demoRegistry
(both paths metacharacter-free): no exact entry exists, the first route is
not a candidate, and the lookup returns the second route with the
parameter y bound to q. -/
theorem no_exact_first_pattern_wins_witness :
    (RegistryWF demoRegistry ∧
      (∀ e ∈ demoRegistry, plainPath e.2.path) ∧
      lookupKey demoRegistry ("/b/q" ++ "GET") = none ∧
      (∀ e ∈ [("/a/\x7bx\x7dGET", mkRoute "/a/\x7bx\x7d" "GET" "m1" "d1")],
        ¬ scanHit "/b/q" "GET" e) ∧
      rmatch [Rx.ch '/', Rx.ch 'b', Rx.ch '/', Rx.phGroup] "/b/q".data =
        some [['q']]) ∧
    findMatchingRoute demoRegistry "/b/q" "GET" =
      some (mkRoute "/b/\x7by\x7d" "GET" "m2" "d2",
        extractParams (mkRoute "/b/\x7by\x7d" "GET" "m2" "d2").paramNames [['q']]) :=
  ⟨⟨by decide, by decide, by decide, by decide, by decide⟩,
    (no_exact_first_pattern_wins demoRegistry "/b/q" "GET" (by decide)
        (by decide) (by decide)).2
      [("/a/\x7bx\x7dGET", mkRoute "/a/\x7bx\x7d" "GET" "m1" "d1")]
      ("/b/\x7by\x7dGET", mkRoute "/b/\x7by\x7d" "GET" "m2" "d2") []
      [Rx.ch '/', Rx.ch 'b', Rx.ch '/', Rx.phGroup] [['q']]
      (by decide) (by decide) (by decide) (by decide) (by decide)⟩

/-- applyMiddleware: starting from the terminal handler, iterate the
middleware list from its last index down to 0, wrapping the accumulated
handler at each step; the handler type is abstract, matching the Go
fasthttp.RequestHandler transformer signature. -/
def applyMiddleware {α : Type} (mws : List (α → α)) (handler : α) : α :=
  mws.reverse.foldl (fun result m => m result) handler

/-- C6: For middlewares m1..mk in registration order and terminal handler
h, the effective handler built by applyMiddleware equals
m1 (m2 (... (mk h))): the loop applies middlewares in reverse registration
order, so the first-registered middleware is the outermost wrapper (its
pre-logic runs first and its post-logic last when the wrapped handler
executes). -/
theorem middleware_first_registered_outermost {α : Type} (mws : List (α → α))
    (handler : α) :
    applyMiddleware mws handler = mws.foldr (fun m acc => m acc) handler ∧
    ∀ m1 m2 m3 : α → α,
      applyMiddleware [m1, m2, m3] handler = m1 (m2 (m3 handler)) := by
  constructor
  · rw [applyMiddleware, List.foldl_reverse]
  · intro m1 m2 m3
    rfl

/-- The rate limiter window: 60 seconds, in nanoseconds. -/
def rlWindow : Int := 60 * 1000000000

/-- The rate limiter cap: at most 100 requests per window. -/
def rlMaxReqs : Nat := 100

/-- The literal 429 response body written by the rate limiter. -/
def rlBody : String :=
  "\x7b\"error\":\"Rate limit exceeded\",\"status_code\":429,\"description\":\"Too many requests, please try again later\"\x7d"

/-- Pointwise update of the per-client timestamp map (clients[ip] = v). -/
def mapUpd (m : String → List Int) (k : String) (v : List Int) :
    String → List Int :=
  fun x => if x = k then v else m x

/-- Result of one pass through the rate limiter middleware body: the
updated clients map and, when the request is rejected, the response
(status, body) written instead of invoking the wrapped handler; response
none means the wrapped handler is invoked. -/
structure RLResult where
  clients : String → List Int
  response : Option (Nat × String)

/-- One request through rateLimiterMiddleware for client ip at time now:
prune the client timestamps to those strictly younger than the window,
store the pruned list back, reject with 429 when the pruned count has
reached the cap, and otherwise append the current timestamp and proceed to
the wrapped handler. A client absent from the Go map behaves like the
empty timestamp list, which the default-empty function model gives
directly. -/
def rateLimitStep (clients : String → List Int) (ip : String) (now : Int) :
    RLResult :=
  let validTimes := (clients ip).filter (fun t => now - t < rlWindow)
  if rlMaxReqs ≤ validTimes.length then
    { clients := mapUpd clients ip validTimes, response := some (429, rlBody) }
  else
    { clients := mapUpd clients ip (validTimes ++ [now]), response := none }

/-- C7: with cap 100 and window 60s, one pass of the rate limiter (a)
rejects with 429 and the structured error body exactly when the count of
the client timestamps still inside the window has reached the cap (so a
101st in-window request is rejected), (b) keeps only in-window timestamps
(plus the newly recorded one) in the stored list, (c) on acceptance
records the new timestamp and passes the request to the wrapped handler,
and (d) accepts the first request arriving after the window has fully
elapsed for every previous timestamp. -/
theorem rate_limiter_sliding_window (clients : String → List Int)
    (ip : String) (now : Int) :
    ((rateLimitStep clients ip now).response = some (429, rlBody) ↔
      rlMaxReqs ≤ ((clients ip).filter (fun t => now - t < rlWindow)).length) ∧
    (∀ t ∈ (rateLimitStep clients ip now).clients ip,
      now - t < rlWindow ∨ t = now) ∧
    (((clients ip).filter (fun t => now - t < rlWindow)).length < rlMaxReqs →
      (rateLimitStep clients ip now).response = none ∧
      (rateLimitStep clients ip now).clients ip =
        (clients ip).filter (fun t => now - t < rlWindow) ++ [now]) ∧
    ((∀ t ∈ clients ip, rlWindow ≤ now - t) →
      (rateLimitStep clients ip now).response = none) := by
  by_cases hcap :
      rlMaxReqs ≤ ((clients ip).filter (fun t => now - t < rlWindow)).length
  · refine ⟨by simp [rateLimitStep, hcap], ?_, ?_, ?_⟩
    · intro t ht
      simp [rateLimitStep, hcap, mapUpd, List.mem_filter] at ht
      exact Or.inl ht.2
    · intro hlt
      omega
    · intro hall
      exfalso
      have : ((clients ip).filter (fun t => now - t < rlWindow)) = [] := by
        rw [List.filter_eq_nil_iff]
        intro t ht
        have := hall t ht
        simp
        omega
      rw [this] at hcap
      simp [rlMaxReqs] at hcap
  · refine ⟨by simp [rateLimitStep, hcap], ?_, ?_, ?_⟩
    · intro t ht
      simp [rateLimitStep, hcap, mapUpd, List.mem_filter] at ht
      rcases ht with ⟨_, h⟩ | h
      · exact Or.inl h
      · exact Or.inr h
    · intro _
      exact ⟨by simp [rateLimitStep, hcap], by simp [rateLimitStep, hcap, mapUpd]⟩
    · intro _
      simp [rateLimitStep, hcap]

/-- Witness for C7: a client with 100 in-window timestamps is rejected
with the 429 body, and a client whose single timestamp is exactly one full
window old is accepted. -/
theorem rate_limiter_sliding_window_witness :
    (rateLimitStep (fun _ => List.replicate 100 0) "c" 1).response =
      some (429, rlBody) ∧
    (rateLimitStep (fun _ => [0]) "c" rlWindow).response = none :=
  ⟨(rate_limiter_sliding_window (fun _ => List.replicate 100 0) "c" 1).1.mpr
      (by decide),
    (rate_limiter_sliding_window (fun _ => [0]) "c" rlWindow).2.2.2
      (by decide)⟩

/-- C10: one pass of the rate limiter appends the current timestamp to the
stored client list if and only if the request is passed to the wrapped
handler; a rejected request leaves only the pruned timestamps, so a
rejected request never adds a timestamp and cannot extend the client
lock-out. -/
theorem rejected_request_adds_no_timestamp (clients : String → List Int)
    (ip : String) (now : Int) :
    ((rateLimitStep clients ip now).response = none ↔
      (rateLimitStep clients ip now).clients ip =
        (clients ip).filter (fun t => now - t < rlWindow) ++ [now]) ∧
    ((rateLimitStep clients ip now).response ≠ none →
      (rateLimitStep clients ip now).clients ip =
        (clients ip).filter (fun t => now - t < rlWindow)) := by
  by_cases hcap :
      rlMaxReqs ≤ ((clients ip).filter (fun t => now - t < rlWindow)).length
  · constructor
    · constructor
      · intro h
        simp [rateLimitStep, hcap] at h
      · intro h
        simp only [rateLimitStep, if_pos hcap, mapUpd, if_pos rfl] at h
        exact absurd (congrArg List.length h) (by simp)
    · intro _
      simp [rateLimitStep, hcap, mapUpd]
  · constructor
    · constructor
      · intro _
        simp [rateLimitStep, hcap, mapUpd]
      · intro _
        simp [rateLimitStep, hcap]
    · intro h
      exact absurd (by simp [rateLimitStep, hcap]) h

/-- Witness for C10: a rejected request (100 in-window timestamps) leaves
the stored list at the pruned timestamps, without the new one. -/
theorem rejected_request_adds_no_timestamp_witness :
    (rateLimitStep (fun _ => List.replicate 100 5) "c" 6).clients "c" =
      ((fun (_ : String) => List.replicate 100 5) "c").filter
        (fun t => 6 - t < rlWindow) :=
  (rejected_request_adds_no_timestamp (fun _ => List.replicate 100 5) "c" 6).2
    (by decide)

/-- The tunable server parameters (ServerConfig in the Go source);
durations are nanoseconds. -/
structure ServerConfig where
  readTimeout : Int
  writeTimeout : Int
  idleTimeout : Int
  maxRequestBodySize : Int
  concurrency : Int
  tcpKeepAlive : Bool
  reduceMemoryUsage : Bool
  port : String
  deriving DecidableEq, Repr

/-- The initial serverConfig value of the Go source. -/
def defaultServerConfig : ServerConfig :=
  { readTimeout := 5 * 1000000000, writeTimeout := 10 * 1000000000,
    idleTimeout := 30 * 1000000000, maxRequestBodySize := 4 * 1024 * 1024,
    concurrency := 256 * 1024, tcpKeepAlive := true,
    reduceMemoryUsage := true, port := ":8080" }

/-- SetServerConfig: each timeout (given in milliseconds) is applied only
when positive (stored as nanoseconds), body size and concurrency only when
positive, and the port only when the passed pointer is non-nil and the
string non-empty; every other field keeps its previous value. -/
def setServerConfig (cfg : ServerConfig)
    (readTimeout writeTimeout idleTimeout maxBodySize concurrency : Int)
    (port : Option String) : ServerConfig :=
  { cfg with
    readTimeout :=
      if 0 < readTimeout then readTimeout * 1000000 else cfg.readTimeout,
    writeTimeout :=
      if 0 < writeTimeout then writeTimeout * 1000000 else cfg.writeTimeout,
    idleTimeout :=
      if 0 < idleTimeout then idleTimeout * 1000000 else cfg.idleTimeout,
    maxRequestBodySize :=
      if 0 < maxBodySize then maxBodySize else cfg.maxRequestBodySize,
    concurrency := if 0 < concurrency then concurrency else cfg.concurrency,
    port :=
      match port with
      | some p => if p ≠ "" then p else cfg.port
      | none => cfg.port }

/-- C9: every numeric field of SetServerConfig is applied only when the
supplied value is positive and the port only when supplied non-empty; a
non-positive numeric value (in particular maxBodySize = 0) or an absent or
empty port leaves the previous value unchanged, and the fields the call
does not cover (keep-alive, memory-reduction flags) are never touched. -/
theorem server_config_positive_only (cfg : ServerConfig)
    (r w i mb c : Int) (port : Option String) :
    (¬ 0 < r → (setServerConfig cfg r w i mb c port).readTimeout = cfg.readTimeout) ∧
    (0 < r → (setServerConfig cfg r w i mb c port).readTimeout = r * 1000000) ∧
    (¬ 0 < w → (setServerConfig cfg r w i mb c port).writeTimeout = cfg.writeTimeout) ∧
    (0 < w → (setServerConfig cfg r w i mb c port).writeTimeout = w * 1000000) ∧
    (¬ 0 < i → (setServerConfig cfg r w i mb c port).idleTimeout = cfg.idleTimeout) ∧
    (0 < i → (setServerConfig cfg r w i mb c port).idleTimeout = i * 1000000) ∧
    (¬ 0 < mb →
      (setServerConfig cfg r w i mb c port).maxRequestBodySize =
        cfg.maxRequestBodySize) ∧
    (0 < mb → (setServerConfig cfg r w i mb c port).maxRequestBodySize = mb) ∧
    (¬ 0 < c → (setServerConfig cfg r w i mb c port).concurrency = cfg.concurrency) ∧
    (0 < c → (setServerConfig cfg r w i mb c port).concurrency = c) ∧
    ((port = none ∨ port = some "") →
      (setServerConfig cfg r w i mb c port).port = cfg.port) ∧
    (∀ p, port = some p → p ≠ "" →
      (setServerConfig cfg r w i mb c port).port = p) ∧
    (setServerConfig cfg r w i mb c port).tcpKeepAlive = cfg.tcpKeepAlive ∧
    (setServerConfig cfg r w i mb c port).reduceMemoryUsage =
      cfg.reduceMemoryUsage := by
  refine ⟨?_, ?_, ?_, ?_, ?_, ?_, ?_, ?_, ?_, ?_, ?_, ?_, ?_, ?_⟩ <;>
    first
    | (intro h
       simp [setServerConfig, h]
       done)
    | (rintro (rfl | rfl) <;> simp [setServerConfig])
    | (rintro p rfl hp
       simp [setServerConfig, hp])
    | simp [setServerConfig]

/-- Witness for C9: calling with maxBodySize = 0 (and all other numeric
fields 0, no port) leaves the default max body size unchanged, and calling
with a positive body size applies it. -/
theorem server_config_positive_only_witness :
    (¬ (0 : Int) < 0 ∧
      (setServerConfig defaultServerConfig 0 0 0 0 0 none).maxRequestBodySize =
        defaultServerConfig.maxRequestBodySize) ∧
    ((0 : Int) < 8 ∧
      (setServerConfig defaultServerConfig 0 0 0 8 0 none).maxRequestBodySize = 8) :=
  ⟨⟨by decide,
      (server_config_positive_only defaultServerConfig 0 0 0 0 0 none).2.2.2.2.2.2.1
        (by decide)⟩,
    ⟨by decide,
      (server_config_positive_only defaultServerConfig 0 0 0 8 0 none).2.2.2.2.2.2.2.1
        (by decide)⟩⟩

/-- Characterwise lowercasing, modelling strings.ToLower on header names. -/
def goToLower (s : String) : String :=
  (s.data.map Char.toLower).asString

/-- The namespaced key under which a header value is merged into the
request parameter map: the prefixed, lower-cased header name. -/
def headerNsKey (k : String) : String :=
  "header:" ++ goToLower k

/-- Pointwise update of a request parameter map (params[k] = v). -/
def mapSet (m : String → Option String) (k v : String) :
    String → Option String :=
  fun x => if x = k then some v else m x

/-- parseRequestParams: start from the extracted path parameters, then
assign every query parameter (overwriting on equal names in iteration
order), then assign every header value under its namespaced key. The
inputs are the iteration sequences of the Go maps and the result is the
final map, as a lookup function. -/
def parseRequestParams (pathParams query headers : List (String × String)) :
    String → Option String :=
  let m0 := pathParams.foldl (fun m e => mapSet m e.1 e.2) (fun _ => none)
  let m1 := query.foldl (fun m e => mapSet m e.1 e.2) m0
  headers.foldl (fun m e => mapSet m (headerNsKey e.1) e.2) m1

/-- The last value assigned for a name by a sequence of assignments, if
any: the map semantics of folding mapSet over a list. -/
def lastVal : List (String × String) → String → Option String
  | [], _ => none
  | e :: rest, n =>
    match lastVal rest n with
    | some v => some v
    | none => if e.1 = n then some e.2 else none

theorem foldl_mapSet_eq (l : List (String × String))
    (m : String → Option String) (n : String) :
    l.foldl (fun m e => mapSet m e.1 e.2) m n =
      match lastVal l n with
      | some v => some v
      | none => m n := by
  induction l generalizing m with
  | nil => simp [lastVal]
  | cons e rest ih =>
    simp only [List.foldl_cons, lastVal, ih (mapSet m e.1 e.2) ]
    cases lastVal rest n with
    | some v => rfl
    | none =>
      by_cases he : e.1 = n
      · simp [mapSet, he]
      · simp only [if_neg he, mapSet]
        rw [if_neg (fun hn => he hn.symm)]

theorem lastVal_some_mem (l : List (String × String)) (n : String) (v : String)
    (h : lastVal l n = some v) : ∃ e ∈ l, e.1 = n ∧ e.2 = v := by
  induction l with
  | nil => simp [lastVal] at h
  | cons e rest ih =>
    simp only [lastVal] at h
    cases hl : lastVal rest n with
    | some w =>
      rw [hl] at h
      obtain ⟨e0, he0, hp⟩ := ih (hl.trans (by simpa using h))
      exact ⟨e0, List.mem_cons_of_mem _ he0, hp⟩
    | none =>
      rw [hl] at h
      by_cases he : e.1 = n
      · rw [if_pos he] at h
        exact ⟨e, List.mem_cons_self _ _, he, Option.some.inj h⟩
      · rw [if_neg he] at h
        simp at h

theorem foldl_mapSet_hdr_eq (l : List (String × String))
    (m : String → Option String) (n : String) :
    l.foldl (fun m e => mapSet m (headerNsKey e.1) e.2) m n =
      match lastVal (l.map (fun e => (headerNsKey e.1, e.2))) n with
      | some v => some v
      | none => m n := by
  induction l generalizing m with
  | nil => simp [lastVal]
  | cons e rest ih =>
    simp only [List.foldl_cons, List.map_cons, lastVal,
      ih (mapSet m (headerNsKey e.1) e.2)]
    cases lastVal (rest.map (fun e => (headerNsKey e.1, e.2))) n with
    | some v => rfl
    | none =>
      by_cases he : headerNsKey e.1 = n
      · simp [mapSet, he]
      · simp only [if_neg he, mapSet]
        rw [if_neg (fun hn => he hn.symm)]

/-- The request parameter map, characterized by merge precedence: the
last-assigned header value under the namespaced key wins over the
last-assigned query value, which wins over the last-assigned path
parameter value. -/
theorem parseRequestParams_eq (p q h : List (String × String)) (n : String) :
    parseRequestParams p q h n =
      match lastVal (h.map (fun e => (headerNsKey e.1, e.2))) n with
      | some v => some v
      | none =>
        match lastVal q n with
        | some v => some v
        | none => lastVal p n := by
  simp only [parseRequestParams]
  rw [foldl_mapSet_hdr_eq]
  cases lastVal (h.map (fun e => (headerNsKey e.1, e.2))) n with
  | some v => rfl
  | none =>
    simp only
    rw [foldl_mapSet_eq]
    cases lastVal q n with
    | some v => rfl
    | none =>
      simp only
      rw [foldl_mapSet_eq]
      cases lastVal p n <;> rfl

/-- C5 counterexample: the namespaced header keys are not collision-free
against arbitrary path or query parameter names. A path parameter
literally named header:a (a legal placeholder name for the path pattern
compiler) collides with the namespaced key of header A, whose value
overwrites the extracted path parameter, so the claim that header entries
never collide with path or query parameter names fails. -/
theorem header_namespace_collision_cex :
    parseRequestParams [("header:a", "p")] [] [("A", "h")] "header:a" =
      some "h" ∧
    parseRequestParams [("header:a", "p")] [] [] "header:a" = some "p" ∧
    ("h" : String) ≠ "p" := by
  refine ⟨by decide, by decide, by decide⟩

/-- C5 as amended: the resolved map is built from path parameters, then
query parameters (overwriting on equal names), then header values under
the distinguished lower-cased namespaced key; every header lands under a
key beginning with the 7-character namespace marker, and header entries
cannot collide with path or query parameter names provided no path or
query parameter name itself begins with that marker. -/
theorem params_merge_precedence (pathParams query headers : List (String × String)) :
    (∀ n, parseRequestParams pathParams query headers n =
      match lastVal (headers.map (fun e => (headerNsKey e.1, e.2))) n with
      | some v => some v
      | none =>
        match lastVal query n with
        | some v => some v
        | none => lastVal pathParams n) ∧
    (∀ e ∈ headers, (headerNsKey e.1).data.take 7 = "header:".data) ∧
    ((∀ e ∈ pathParams, e.1.data.take 7 ≠ "header:".data) →
      (∀ e ∈ query, e.1.data.take 7 ≠ "header:".data) →
      ∀ n e0, e0 ∈ pathParams ++ query → e0.1 = n →
        parseRequestParams pathParams query headers n =
          parseRequestParams pathParams query [] n) := by
  have hdrpre : ∀ k : String, (headerNsKey k).data.take 7 = "header:".data := by
    intro k
    rw [headerNsKey, String.data_append]
    have h7 : ("header:".data).length = 7 := rfl
    rw [← h7, List.take_left]
  refine ⟨parseRequestParams_eq pathParams query headers, fun e _ => hdrpre e.1, ?_⟩
  intro hp hq n e0 he0 hn
  have hntake : n.data.take 7 ≠ "header:".data := by
    rcases List.mem_append.mp he0 with h | h
    · rw [← hn]; exact hp e0 h
    · rw [← hn]; exact hq e0 h
  have hnone : lastVal (headers.map (fun e => (headerNsKey e.1, e.2))) n = none := by
    cases hl : lastVal (headers.map (fun e => (headerNsKey e.1, e.2))) n with
    | none => rfl
    | some v =>
      exfalso
      obtain ⟨e, he, hke, _⟩ := lastVal_some_mem _ _ _ hl
      obtain ⟨e1, _, rfl⟩ := List.mem_map.mp he
      exact hntake (by rw [← hke]; exact hdrpre e1.1)
  rw [parseRequestParams_eq, hnone, parseRequestParams_eq]
  simp [lastVal]

/-- Witness for C5 (amended) at path parameter id=1, query parameter id=2
and header X=v: no parameter name carries the namespace marker, so the
resolved value of id is unaffected by the headers (and equals the query
value, which overwrote the path value). -/
theorem params_merge_precedence_witness :
    (∀ e ∈ [(("id" : String), ("1" : String))],
      e.1.data.take 7 ≠ "header:".data) ∧
    (∀ e ∈ [(("id" : String), ("2" : String))],
      e.1.data.take 7 ≠ "header:".data) ∧
    (("id" : String), ("2" : String)) ∈ [(("id" : String), ("1" : String))] ++
      [(("id" : String), ("2" : String))] ∧
    parseRequestParams [("id", "1")] [("id", "2")] [("X", "v")] "id" =
      parseRequestParams [("id", "1")] [("id", "2")] [] "id" :=
  ⟨by decide, by decide, by decide,
    (params_merge_precedence [("id", "1")] [("id", "2")] [("X", "v")]).2.2
      (by decide) (by decide) "id" ("id", "2") (by decide) rfl⟩

mutual

/-- JSON values as produced by encoding/json decoding into interface
values: strings, numbers (kept as their source lexeme; the examined
properties do not depend on float formatting), booleans, null, objects and
arrays. -/
inductive JVal where
  | jstr (s : String)
  | jnum (lex : String)
  | jbool (b : Bool)
  | jnull
  | jobj (fields : JFields)
  | jarr (items : JItems)

/-- Object members in source order (duplicates possible before the Go map
semantics collapses them). -/
inductive JFields where
  | fnil
  | fcons (k : String) (v : JVal) (rest : JFields)

/-- Array items in order. -/
inductive JItems where
  | inil
  | icons (v : JVal) (rest : JItems)

end

/-- JSON insignificant whitespace. -/
def isWs (c : Char) : Bool :=
  c = ' ' || c = '\t' || c = '\n' || c = '\r'

/-- Skip insignificant whitespace. -/
def skipWs (l : List Char) : List Char :=
  l.dropWhile isWs

/-- Value of one hexadecimal digit. -/
def hexVal (c : Char) : Option Nat :=
  if '0' ≤ c ∧ c ≤ '9' then some (c.toNat - '0'.toNat)
  else if 'a' ≤ c ∧ c ≤ 'f' then some (c.toNat - 'a'.toNat + 10)
  else if 'A' ≤ c ∧ c ≤ 'F' then some (c.toNat - 'A'.toNat + 10)
  else none

/-- Parse the body of a JSON string literal after its opening quote,
decoding escapes, up to and including the closing quote; raw control
characters are rejected. A \u escape decodes its code point directly
(surrogate pairing is not modelled; no examined property depends on it).
The fuel exceeds the input length, and every step consumes at least one
character. -/
def parseStrBody : Nat → List Char → Option (List Char × List Char)
  | 0, _ => none
  | _ + 1, [] => none
  | n + 1, c :: cs =>
    if c = '"' then some ([], cs)
    else if c = '\\' then
      match cs with
      | [] => none
      | e :: cs2 =>
        if e = '"' ∨ e = '\\' ∨ e = '/' then
          (parseStrBody n cs2).map (fun p => (e :: p.1, p.2))
        else if e = 'b' then
          (parseStrBody n cs2).map (fun p => (Char.ofNat 8 :: p.1, p.2))
        else if e = 'f' then
          (parseStrBody n cs2).map (fun p => (Char.ofNat 12 :: p.1, p.2))
        else if e = 'n' then
          (parseStrBody n cs2).map (fun p => ('\n' :: p.1, p.2))
        else if e = 'r' then
          (parseStrBody n cs2).map (fun p => ('\r' :: p.1, p.2))
        else if e = 't' then
          (parseStrBody n cs2).map (fun p => ('\t' :: p.1, p.2))
        else if e = 'u' then
          match cs2 with
          | h1 :: h2 :: h3 :: h4 :: cs3 =>
            match hexVal h1, hexVal h2, hexVal h3, hexVal h4 with
            | some a, some b, some c2, some d =>
              (parseStrBody n cs3).map
                (fun p => (Char.ofNat (a * 4096 + b * 256 + c2 * 16 + d) :: p.1, p.2))
            | _, _, _, _ => none
          | _ => none
        else none
    else if c.toNat < 32 then none
    else (parseStrBody n cs).map (fun p => (c :: p.1, p.2))

/-- A maximal run of decimal digits. -/
def parseDigits (l : List Char) : List Char × List Char :=
  l.span (fun c => c.isDigit)

/-- Optional fraction part of a JSON number. -/
def parseFrac (l : List Char) : Option (List Char × List Char) :=
  match l with
  | '.' :: r =>
    let p := parseDigits r
    if p.1.isEmpty then none else some ('.' :: p.1, p.2)
  | _ => some ([], l)

/-- Optional exponent part of a JSON number. -/
def parseExp (l : List Char) : Option (List Char × List Char) :=
  match l with
  | c :: r =>
    if c = 'e' ∨ c = 'E' then
      let sg : List Char × List Char :=
        match r with
        | '+' :: rr => (['+'], rr)
        | '-' :: rr => (['-'], rr)
        | _ => ([], r)
      let p := parseDigits sg.2
      if p.1.isEmpty then none else some (c :: sg.1 ++ p.1, p.2)
    else some ([], c :: r)
  | [] => some ([], [])

/-- The lexeme of a JSON number (grammar: -? (0 | [1-9][0-9]*) frac? exp?). -/
def parseNumLex (l : List Char) : Option (List Char × List Char) :=
  let sign : List Char × List Char :=
    match l with
    | '-' :: r => (['-'], r)
    | _ => ([], l)
  match sign.2 with
  | [] => none
  | d :: rest =>
    if d = '0' then
      match parseFrac rest with
      | none => none
      | some (fr, l2) =>
        match parseExp l2 with
        | none => none
        | some (ex, l3) => some (sign.1 ++ '0' :: (fr ++ ex), l3)
    else if d.isDigit then
      let ds := parseDigits (d :: rest)
      match parseFrac ds.2 with
      | none => none
      | some (fr, l3) =>
        match parseExp l3 with
        | none => none
        | some (ex, l4) => some (sign.1 ++ ds.1 ++ fr ++ ex, l4)
    else none

/-- Consume an expected literal character run. -/
def dropLit : List Char → List Char → Option (List Char)
  | l, [] => some l
  | [], _ :: _ => none
  | c :: cs, p :: ps => if c = p then dropLit cs ps else none

mutual

/-- Fuel-indexed JSON value parser (the grammar accepted by
encoding/json): returns the value and the unconsumed remainder. -/
def parseVal : Nat → List Char → Option (JVal × List Char)
  | 0, _ => none
  | n + 1, l =>
    match skipWs l with
    | [] => none
    | c :: cs =>
      if c = '"' then
        (parseStrBody (cs.length + 1) cs).map (fun p => (.jstr p.1.asString, p.2))
      else if c = '{' then
        match skipWs cs with
        | '}' :: r => some (.jobj .fnil, r)
        | _ => (parseMembers n cs).map (fun p => (.jobj p.1, p.2))
      else if c = '[' then
        match skipWs cs with
        | ']' :: r => some (.jarr .inil, r)
        | _ => (parseItems n cs).map (fun p => (.jarr p.1, p.2))
      else if c = 't' then (dropLit cs "rue".data).map (fun r => (.jbool true, r))
      else if c = 'f' then (dropLit cs "alse".data).map (fun r => (.jbool false, r))
      else if c = 'n' then (dropLit cs "ull".data).map (fun r => (.jnull, r))
      else (parseNumLex (c :: cs)).map (fun p => (.jnum p.1.asString, p.2))

/-- One or more object members separated by commas, up to the closing
brace. -/
def parseMembers : Nat → List Char → Option (JFields × List Char)
  | 0, _ => none
  | n + 1, l =>
    match skipWs l with
    | '"' :: cs =>
      match parseStrBody (cs.length + 1) cs with
      | none => none
      | some (k, r1) =>
        match skipWs r1 with
        | ':' :: r2 =>
          match parseVal n r2 with
          | none => none
          | some (v, r3) =>
            match skipWs r3 with
            | ',' :: r4 =>
              (parseMembers n r4).map (fun p => (.fcons k.asString v p.1, p.2))
            | '}' :: r4 => some (.fcons k.asString v .fnil, r4)
            | _ => none
        | _ => none
    | _ => none

/-- One or more array items separated by commas, up to the closing
bracket. -/
def parseItems : Nat → List Char → Option (JItems × List Char)
  | 0, _ => none
  | n + 1, l =>
    match parseVal n l with
    | none => none
    | some (v, r1) =>
      match skipWs r1 with
      | ',' :: r2 => (parseItems n r2).map (fun p => (.icons v p.1, p.2))
      | ']' :: r2 => some (.icons v .inil, r2)
      | _ => none

end

/-- Whole-text JSON parsing as json.Unmarshal does: one value with only
whitespace around it; trailing data is an error. The fuel strictly exceeds
twice the input length, which bounds the recursion depth. -/
def parseJson (s : String) : Option JVal :=
  match parseVal (2 * s.data.length + 4) s.data with
  | some (v, rest) => if (skipWs rest).isEmpty then some v else none
  | none => none

/-- Whether an object holds a binding for a key. -/
def JFields.hasKey : JFields → String → Bool
  | .fnil, _ => false
  | .fcons k _ r, key => k = key || r.hasKey key

mutual

/-- The Go map semantics of decoded objects: duplicate keys collapse with
the last binding winning, recursively. -/
def dedupVal : JVal → JVal
  | .jstr s => .jstr s
  | .jnum x => .jnum x
  | .jbool b => .jbool b
  | .jnull => .jnull
  | .jobj fs => .jobj (dedupFields fs)
  | .jarr its => .jarr (dedupItems its)

/-- Drop every binding shadowed by a later one with the same key. -/
def dedupFields : JFields → JFields
  | .fnil => .fnil
  | .fcons k v r =>
    if r.hasKey k then dedupFields r else .fcons k (dedupVal v) (dedupFields r)

/-- Map the collapse over array items. -/
def dedupItems : JItems → JItems
  | .inil => .inil
  | .icons v r => .icons (dedupVal v) (dedupItems r)

end

/-- json.Unmarshal into map[string]interface\x7b\x7d: succeeds exactly on
a JSON object (yielding its member map) or JSON null (leaving the map
nil); any other JSON value or a parse failure is an error. -/
def unmarshalMap (s : String) : Option (Option JFields) :=
  match parseJson s with
  | some (.jobj fs) => some (some (dedupFields fs))
  | some .jnull => some none
  | _ => none

/-- Lower-case hexadecimal digit. -/
def hexDig (n : Nat) : Char :=
  if n < 10 then Char.ofNat ('0'.toNat + n) else Char.ofNat ('a'.toNat + n - 10)

/-- The escaping encoding/json applies to one character of a string value
(with its default HTML escaping of angle brackets and ampersands). -/
def goEscChar (c : Char) : List Char :=
  if c = '"' then ['\\', '"']
  else if c = '\\' then ['\\', '\\']
  else if c = '\n' then ['\\', 'n']
  else if c = '\r' then ['\\', 'r']
  else if c = '\t' then ['\\', 't']
  else if c = '<' ∨ c = '>' ∨ c = '&' then
    ['\\', 'u', '0', '0', hexDig (c.toNat / 16), hexDig (c.toNat % 16)]
  else if c.toNat < 32 then
    ['\\', 'u', '0', '0', hexDig (c.toNat / 16), hexDig (c.toNat % 16)]
  else [c]

/-- A JSON-quoted string as encoding/json renders it. -/
def goQuote (s : String) : List Char :=
  '"' :: (s.data.map goEscChar).flatten ++ ['"']

/-- Bytewise (here: code-point-wise) strict order on strings, the order in
which Go sorts map keys when marshalling. -/
def strLtB : List Char → List Char → Bool
  | [], [] => false
  | [], _ :: _ => true
  | _ :: _, [] => false
  | a :: as, b :: bs =>
    if a.toNat < b.toNat then true
    else if b.toNat < a.toNat then false
    else strLtB as bs

/-- Insertion into a key-sorted association list. -/
def insPair (e : String × List Char) :
    List (String × List Char) → List (String × List Char)
  | [] => [e]
  | x :: xs => if strLtB e.1.data x.1.data then e :: x :: xs else x :: insPair e xs

/-- Key-sort an association list of rendered values. -/
def sortPairs (l : List (String × List Char)) : List (String × List Char) :=
  l.foldr insPair []

/-- Comma-join rendered fragments. -/
def joinComma : List (List Char) → List Char
  | [] => []
  | [x] => x
  | x :: y :: xs => x ++ ',' :: joinComma (y :: xs)

/-- Render an object from its rendered members, keys sorted as Go sorts
map keys. -/
def wrapObjChars (ps : List (String × List Char)) : List Char :=
  '{' :: (joinComma ((sortPairs ps).map (fun p => goQuote p.1 ++ ':' :: p.2))) ++ ['}']

mutual

/-- json.Marshal of a decoded value: object keys sorted, strings escaped,
number lexemes preserved (see JVal). -/
def marshalVal : JVal → List Char
  | .jstr s => goQuote s
  | .jnum lex => lex.data
  | .jbool true => "true".data
  | .jbool false => "false".data
  | .jnull => "null".data
  | .jobj fs => wrapObjChars (marshalFields fs)
  | .jarr its => '[' :: joinComma (marshalItems its) ++ [']']

/-- Members with their rendered values, in member order (sorting happens in
wrapObjChars). -/
def marshalFields : JFields → List (String × List Char)
  | .fnil => []
  | .fcons k v r => (k, marshalVal v) :: marshalFields r

/-- Items rendered in order. -/
def marshalItems : JItems → List (List Char)
  | .inil => []
  | .icons v r => marshalVal v :: marshalItems r

end

/-- Whether a list starts with the given run (strings.HasPrefix on the
character level). -/
def startsWithL : List Char → List Char → Bool
  | _, [] => true
  | [], _ :: _ => false
  | c :: cs, p :: ps => c = p && startsWithL cs ps

/-- strings.Contains on the character level. -/
def containsSub (s pat : List Char) : Bool :=
  match s with
  | [] => pat.isEmpty
  | _ :: cs => startsWithL s pat || containsSub cs pat

/-- Fuel-indexed strings.ReplaceAll: replace non-overlapping leftmost
occurrences. Every step consumes at least one character when the pattern
is nonempty (the only way it is called here, placeholders having at least
two characters); fuel equal to the length suffices. -/
def replaceAllF : Nat → List Char → List Char → List Char → List Char
  | 0, s, _, _ => s
  | n + 1, s, pat, rep =>
    match s with
    | [] => []
    | c :: cs =>
      if ¬ pat.isEmpty ∧ startsWithL s pat then
        rep ++ replaceAllF n (s.drop pat.length) pat rep
      else c :: replaceAllF n cs pat rep

/-- strings.ReplaceAll on strings. -/
def goReplaceAll (s pat rep : String) : String :=
  (replaceAllF s.data.length s.data pat.data rep.data).asString

/-- The placeholder text of a parameter name. -/
def placeholderOf (k : String) : String :=
  "\x7b" ++ k ++ "\x7d"

/-- The per-string-field loop of processJSONFields: for each parameter
whose placeholder occurs in the original value, assign the replacement
computed from the ORIGINAL value (the loop variable v is never updated in
the Go source, so with several distinct placeholders in one string value
only the last parameter iterated takes effect). -/
def substJSONStr (v : String) (ps : List (String × String)) : String :=
  ps.foldl
    (fun cur e =>
      if containsSub v.data (placeholderOf e.1).data then
        goReplaceAll v (placeholderOf e.1) e.2
      else cur)
    v

mutual

/-- processJSONFields dispatch on one member value: strings get the
placeholder substitution, nested objects are processed recursively, arrays
are walked; every other value is untouched. -/
def processFieldVal (ps : List (String × String)) : JVal → JVal
  | .jstr s => .jstr (substJSONStr s ps)
  | .jobj fs => .jobj (processFields ps fs)
  | .jarr its => .jarr (processItems ps its)
  | v => v

/-- processJSONFields over a decoded object map. -/
def processFields (ps : List (String × String)) : JFields → JFields
  | .fnil => .fnil
  | .fcons k v r => .fcons k (processFieldVal ps v) (processFields ps r)

/-- The array loop of processJSONFields: objects in the array are
processed, string items substituted, anything else (including nested
arrays) left as is. -/
def processItems (ps : List (String × String)) : JItems → JItems
  | .inil => .inil
  | .icons v r =>
    .icons
      (match v with
       | .jobj fs => .jobj (processFields ps fs)
       | .jstr s => .jstr (substJSONStr s ps)
       | other => other)
      (processItems ps r)

end

/-- processMessageTemplate: if the message decodes as a JSON object (or
null), substitute placeholders through the decoded structure and
re-marshal it; otherwise apply plain string replacement of every
\x7bname\x7d placeholder, parameters taken in iteration order, on the
accumulated result. -/
def processMessageTemplate (message : String)
    (pathParams : List (String × String)) : String :=
  match unmarshalMap message with
  | some (some fs) => (marshalVal (.jobj (processFields pathParams fs))).asString
  | some none => "null"
  | none =>
    pathParams.foldl
      (fun result e => goReplaceAll result (placeholderOf e.1) e.2) message

/-- Keep the last binding of each name (the Go map built from the zip of
parameter names and captures). -/
def dedupPairs : List (String × String) → List (String × String)
  | [] => []
  | e :: r => if (r.map Prod.fst).contains e.1 then dedupPairs r else e :: dedupPairs r

/-- json.Marshal of a map[string]string: sorted keys, quoted values. -/
def encodeStrMap (ps : List (String × String)) : List Char :=
  wrapObjChars ((dedupPairs ps).map (fun e => (e.1, goQuote e.2)))

/-- The ApiResponse envelope as the Encoder writes it: the message field,
an optional data field holding the path parameters when any exist (debug
data disabled), and the trailing newline the Encoder appends. -/
def encodeApiResp (msg : String) (pathParams : List (String × String)) : String :=
  "\x7b\"message\":" ++ (goQuote msg).asString ++
    (if pathParams.isEmpty then ""
     else ",\"data\":" ++ (encodeStrMap pathParams).asString) ++
    "\x7d\n"

/-- The response body selection at the end of requestHandler: if the
processed message decodes as a JSON object (or null) it is set verbatim as
the application/json body; otherwise the ApiResponse envelope around it is
encoded (with the path parameters under data when any exist). -/
def buildResponseBody (processedMessage : String)
    (pathParams : List (String × String)) : String :=
  if (unmarshalMap processedMessage).isSome then processedMessage
  else encodeApiResp processedMessage pathParams

/-- C4 counterexample: the final text [1,2] is valid JSON (an array), yet
the dispatcher does not return it verbatim: the verbatim branch tests
decodability into a Go map, which only JSON objects (or null) pass, so the
array is wrapped in the message envelope instead. -/
theorem valid_json_array_not_verbatim_cex :
    (parseJson "[1,2]").isSome = true ∧
    processMessageTemplate "[1,2]" [] = "[1,2]" ∧
    buildResponseBody (processMessageTemplate "[1,2]" []) [] =
      "\x7b\"message\":\"[1,2]\"\x7d\n" ∧
    buildResponseBody (processMessageTemplate "[1,2]" []) [] ≠ "[1,2]" := by
  refine ⟨by decide, by decide, by decide, by decide⟩

/-- C4 as amended: after placeholder substitution produces the final text,
the final text is returned verbatim as the application/json body exactly
when it is a valid JSON OBJECT (or JSON null), the class that decodes into
a Go string-keyed map; otherwise it is wrapped in the envelope with
message and optional data fields. -/
theorem json_object_final_text_verbatim (template : String)
    (pathParams : List (String × String)) :
    ((unmarshalMap (processMessageTemplate template pathParams)).isSome = true →
      buildResponseBody (processMessageTemplate template pathParams) pathParams =
        processMessageTemplate template pathParams) ∧
    ((unmarshalMap (processMessageTemplate template pathParams)).isSome = false →
      buildResponseBody (processMessageTemplate template pathParams) pathParams =
        encodeApiResp (processMessageTemplate template pathParams) pathParams) ∧
    (∀ m : String,
      (unmarshalMap m).isSome = true ↔
        (∃ fs, parseJson m = some (.jobj fs)) ∨ parseJson m = some .jnull) := by
  refine ⟨fun h => by simp [buildResponseBody, h],
    fun h => by simp [buildResponseBody, h], ?_⟩
  intro m
  cases h : parseJson m with
  | none => simp [unmarshalMap, h]
  | some v => cases v <;> simp [unmarshalMap, h]

/-- Witness for C4 (amended): a JSON object template with a placeholder
renders and is returned verbatim; a plain string template is wrapped in
the envelope. -/
theorem json_object_final_text_verbatim_witness :
    ((unmarshalMap (processMessageTemplate
        "\x7b\"message\":\"Hello, \x7bname\x7d!\"\x7d" [("name", "world")])).isSome =
      true ∧
      buildResponseBody
        (processMessageTemplate "\x7b\"message\":\"Hello, \x7bname\x7d!\"\x7d"
          [("name", "world")]) [("name", "world")] =
        processMessageTemplate "\x7b\"message\":\"Hello, \x7bname\x7d!\"\x7d"
          [("name", "world")]) ∧
    ((unmarshalMap (processMessageTemplate "plain" [])).isSome = false ∧
      buildResponseBody (processMessageTemplate "plain" []) [] =
        encodeApiResp (processMessageTemplate "plain" []) []) :=
  ⟨⟨by decide,
      (json_object_final_text_verbatim
        "\x7b\"message\":\"Hello, \x7bname\x7d!\"\x7d" [("name", "world")]).1
        (by decide)⟩,
    ⟨by decide,
      (json_object_final_text_verbatim "plain" []).2.1 (by decide)⟩⟩

/-- The miss-branch condition of requestHandler over one registry entry:
the stored path equals the request path, or the stored compiled pattern
accepts it (MatchString). -/
def routePathMatches (r : RouteInfo) (path : String) : Bool :=
  r.path = path ||
    (match r.pathRegex with
     | some toks => (rmatch toks path.data).isSome
     | none => false)

/-- The methods collected on a miss: the method of every registered route
whose path matches the request path, in registry iteration order. -/
def supportedMethods (routes : Registry) (path : String) : List String :=
  (routes.filter (fun e => routePathMatches e.2 path)).map (fun e => e.2.method)

/-- strings.Join with the separator (space) or (space). -/
def joinOr : List String → String
  | [] => ""
  | [m] => m
  | m :: m2 :: rest => m ++ " or " ++ joinOr (m2 :: rest)

/-- The 404 error message: the base text, plus the try-using-method hint
exactly when some route path matched. -/
def notFoundMsg (method path : String) (supported : List String) : String :=
  "Route not found for " ++ method ++ " " ++ path ++
    (if supported.isEmpty then ""
     else " - Try using method " ++ joinOr supported)

/-- The ErrorResponse envelope as the Encoder writes it: error,
status_code, optional description, and the trailing newline. -/
def encodeErrResp (err : String) (statusCode : Nat) (desc : String) : String :=
  "\x7b\"error\":" ++ (goQuote err).asString ++
    ",\"status_code\":" ++ toString statusCode ++
    (if desc = "" then "" else ",\"description\":" ++ (goQuote desc).asString) ++
    "\x7d\n"

/-- The outcome of requestHandler for one request. The openapiDoc and
swaggerUI outcomes stand for the documentation handlers that bypass
routing entirely (they write their own bodies); notFound carries the 404
body, badRequest stands for the 400 invalid-JSON-body response, and ok
carries the 200 application/json body. -/
inductive DispatchResult where
  | openapiDoc
  | swaggerUI
  | notFound (body : String)
  | badRequest
  | ok (body : String)
  deriving DecidableEq, Repr

/-- requestHandler: serve the documentation special cases first, then look
the route up; on a miss, answer 404 with the structured envelope around
the hint-bearing message; on a hit, decode the body when one is present
(the body argument stands for a nonempty request body under a JSON
content type), answering 400 when it does not decode, and otherwise
render the template and build the response body (debug data disabled). -/
def handleRequest (routes : Registry) (path method : String)
    (body : Option String) : DispatchResult :=
  if path = "/openapi.json" then .openapiDoc
  else if startsWithL path.data "/swagger".data then .swaggerUI
  else
    match findMatchingRoute routes path method with
    | none =>
      .notFound (encodeErrResp
        (notFoundMsg method path (supportedMethods routes path)) 404
        "The requested endpoint does not exist")
    | some (r, pathParams) =>
      match body with
      | some b =>
        if (unmarshalMap b).isSome then
          .ok (buildResponseBody (processMessageTemplate r.message pathParams)
            pathParams)
        else .badRequest
      | none =>
        .ok (buildResponseBody (processMessageTemplate r.message pathParams)
          pathParams)

theorem scanRoutes_cons_none (e0 : String × RouteInfo) (rest : Registry)
    (path method : String) (h : scanRoutes (e0 :: rest) path method = none) :
    scanRoutes rest path method = none := by
  obtain ⟨k0, r0⟩ := e0
  simp only [scanRoutes] at h
  split at h
  · split at h
    · split at h
      · split at h
        · exact h
        · exact absurd h (by simp)
      · exact h
    · exact h
  · exact h

theorem scanRoutes_none_imp (l : Registry) (path method : String)
    (h : scanRoutes l path method = none) :
    ∀ e ∈ l, e.2.method = method →
      ∀ toks caps, e.2.pathRegex = some toks →
        rmatch toks path.data = some caps → caps = [] := by
  induction l with
  | nil => simp
  | cons e0 rest ih =>
    intro e he hm toks caps hrx hmt
    rcases List.mem_cons.mp he with rfl | he2
    · by_cases hc : caps = []
      · exact hc
      · exfalso
        rw [scanRoutes_cons_hit e rest path method toks caps hrx hm hmt hc] at h
        simp at h
    · exact ih (scanRoutes_cons_none e0 rest path method h) e he2 hm toks caps
        hrx hmt

/-- If findMatchingRoute reports a miss, both the exact lookup and the
pattern scan failed. -/
theorem findMatchingRoute_none (routes : Registry) (path method : String)
    (h : findMatchingRoute routes path method = none) :
    lookupKey routes (path ++ method) = none ∧
      scanRoutes routes path method = none := by
  rw [findMatchingRoute] at h
  cases hl : lookupKey routes (path ++ method) with
  | some r => rw [hl] at h; simp at h
  | none => rw [hl] at h; exact ⟨rfl, h⟩

/-- On a miss in a well-formed registry of metacharacter-free paths, every
route whose path matches the request path carries a different method:
equal path and method would have hit the exact lookup, and a pattern
accepting the path under the same method either captures something (then
the scan would have found it) or is placeholder-free (then the path equals
the stored path and the exact lookup would have hit). -/
theorem pathMatching_method_differs (routes : Registry) (path method : String)
    (hwf : RegistryWF routes)
    (hplain : ∀ e ∈ routes, plainPath e.2.path)
    (hmiss : findMatchingRoute routes path method = none) :
    ∀ e ∈ routes, routePathMatches e.2 path = true → e.2.method ≠ method := by
  obtain ⟨hlk, hscan⟩ := findMatchingRoute_none routes path method hmiss
  intro e he hmatch hm
  have hne : e.1 ≠ path ++ method :=
    (lookupKey_eq_none_iff routes (path ++ method)).mp hlk e he
  have hfacts := hwf.2 e he
  rcases Bool.or_eq_true _ _ |>.mp hmatch with hpath | hrxm
  · have hp : e.2.path = path := by simpa using hpath
    exact hne (by rw [hfacts.1, hp, hm])
  · cases hx : e.2.pathRegex with
    | none => rw [hx] at hrxm; simp at hrxm
    | some rx =>
      rw [hx] at hrxm
      obtain ⟨caps, hmt⟩ := Option.isSome_iff_exists.mp hrxm
      have hcaps0 : caps = [] :=
        scanRoutes_none_imp routes path method hscan e he hm rx caps hx hmt
      have hcapsne : caps ≠ [] :=
        caps_ne_nil_of_miss e path method rx caps (hplain e he) hfacts.1
          hfacts.2.1 hx hmt hm hne
      exact hcapsne hcaps0

/-- C8 counterexample, in two parts. First, the dispatcher does not answer
404 for every request that matches no route: the documentation paths
bypass routing entirely, so GET /openapi.json against an empty registry
matches no route yet is answered by the OpenAPI document handler, not a
404 envelope. Second, the try-using-method hint does not list only
methods that differ from the request method: with GET /a.b registered,
the request GET /aXb matches no route (the dot-accepting route is
capture-free and skipped by the scan), yet the miss branch finds the
pattern matching the path and the 404 message hints at trying method GET,
the request method itself. -/
theorem bypass_and_self_method_hint_cex :
    (findMatchingRoute [] "/openapi.json" "GET" = none ∧
      handleRequest [] "/openapi.json" "GET" none = .openapiDoc) ∧
    (findMatchingRoute (registerRoute [] "/a.b" "GET" "m" "d") "/aXb" "GET" =
        none ∧
      supportedMethods (registerRoute [] "/a.b" "GET" "m" "d") "/aXb" =
        ["GET"] ∧
      handleRequest (registerRoute [] "/a.b" "GET" "m" "d") "/aXb" "GET" none =
        .notFound (encodeErrResp
          "Route not found for GET /aXb - Try using method GET" 404
          "The requested endpoint does not exist")) := by
  refine ⟨⟨by decide, by decide⟩, by decide, by decide, by decide⟩

/-- C8 as amended: for every request outside the documentation bypass
paths that matches no route in a well-formed registry of
metacharacter-free route paths, the dispatcher returns 404 with the
structured error envelope around a message beginning Route not found; the
try-using-method hint lists exactly the methods of the registered routes
whose path matches the request path (all of which differ from the request
method), and is absent exactly when no registered route path-matches at
all. -/
theorem miss_yields_404_with_method_hint (routes : Registry)
    (path method : String) (body : Option String) (hwf : RegistryWF routes)
    (hplain : ∀ e ∈ routes, plainPath e.2.path)
    (hop : path ≠ "/openapi.json")
    (hsw : startsWithL path.data "/swagger".data = false)
    (hmiss : findMatchingRoute routes path method = none) :
    handleRequest routes path method body =
      .notFound (encodeErrResp
        (notFoundMsg method path (supportedMethods routes path)) 404
        "The requested endpoint does not exist") ∧
    supportedMethods routes path =
      (routes.filter (fun e => routePathMatches e.2 path)).map
        (fun e => e.2.method) ∧
    (supportedMethods routes path = [] ↔
      ∀ e ∈ routes, routePathMatches e.2 path = false) ∧
    (∀ e ∈ routes, routePathMatches e.2 path = true → e.2.method ≠ method) ∧
    (supportedMethods routes path = [] →
      notFoundMsg method path (supportedMethods routes path) =
        "Route not found for " ++ method ++ " " ++ path) := by
  refine ⟨?_, rfl, ?_,
    pathMatching_method_differs routes path method hwf hplain hmiss, ?_⟩
  · rw [handleRequest, if_neg hop, if_neg (by simp [hsw]), hmiss]
  · constructor
    · intro h e he
      by_cases hm : routePathMatches e.2 path = true
      · exfalso
        have : e ∈ routes.filter (fun e => routePathMatches e.2 path) :=
          List.mem_filter.mpr ⟨he, hm⟩
        rw [supportedMethods] at h
        rw [List.map_eq_nil_iff] at h
        rw [h] at this
        simp at this
      · simpa using hm
    · intro h
      rw [supportedMethods, List.map_eq_nil_iff, List.filter_eq_nil_iff]
      intro e he
      simp [h e he]
  · intro h
    rw [notFoundMsg, h]
    simp

/-- Witness for C8 (amended) at a registry holding only
GET /hello/\x7bname\x7d and the request POST /hello/world: a 404 whose
message carries the hint to try method GET. -/
theorem miss_yields_404_with_method_hint_witness :
    (RegistryWF (registerRoute [] "/hello/\x7bname\x7d" "GET" "m" "d") ∧
      (∀ e ∈ registerRoute [] "/hello/\x7bname\x7d" "GET" "m" "d",
        plainPath e.2.path) ∧
      findMatchingRoute (registerRoute [] "/hello/\x7bname\x7d" "GET" "m" "d")
        "/hello/world" "POST" = none ∧
      supportedMethods (registerRoute [] "/hello/\x7bname\x7d" "GET" "m" "d")
        "/hello/world" = ["GET"] ∧
      notFoundMsg "POST" "/hello/world" ["GET"] =
        "Route not found for POST /hello/world - Try using method GET") ∧
    handleRequest (registerRoute [] "/hello/\x7bname\x7d" "GET" "m" "d")
        "/hello/world" "POST" none =
      .notFound (encodeErrResp
        (notFoundMsg "POST" "/hello/world"
          (supportedMethods (registerRoute [] "/hello/\x7bname\x7d" "GET" "m" "d")
            "/hello/world")) 404
        "The requested endpoint does not exist") :=
  ⟨⟨by decide, by decide, by decide, by decide, by decide⟩,
    (miss_yields_404_with_method_hint
      (registerRoute [] "/hello/\x7bname\x7d" "GET" "m" "d")
      "/hello/world" "POST" none (by decide) (by decide) (by decide)
      (by decide) (by decide)).1⟩

end Fastpaze
